import Mathlib

/-!
# Verification of the orthogonal edge-routing engine

Shallow embedding of the routing core of `reactflow-astar-ortho-edges`
(`src/lib/orthogonalRouter.js`, `src/lib/EdgeRoutingProvider.jsx`,
`src/lib/dagreLayout.js`) and proofs about the claims of its specification.

Coordinates are JavaScript doubles in the source; all concrete values
exercised by the library are exact decimals, so we embed them as rationals
(`ℚ`), which keeps every comparison in the code exact and decidable.

The SVG path-string generation (`waypointsToSvgPath`) is not modelled: no
claim under consideration mentions the `svgPath`/`path` output, only the
`points` polylines, so the embedded functions return the points.
-/

set_option maxRecDepth 100000

namespace Router

/-- A point in host-world coordinates (JS `{x, y}`). -/
structure Point where
  x : ℚ
  y : ℚ
deriving DecidableEq, Repr

/-- Stub directions (JS strings `top` / `bottom` / `left` / `right`). -/
inductive Dir where
  | top
  | bottom
  | left
  | right
deriving DecidableEq, Repr

/-- Segment orientation tag used by the router (JS strings `h` / `v`). -/
inductive Axis where
  | h
  | v
deriving DecidableEq, Repr

/-- A node rectangle as consumed by the router (`{id, x, y, width, height}`). -/
structure NodeRect where
  id : ℕ
  x : ℚ
  y : ℚ
  width : ℚ
  height : ℚ
deriving DecidableEq, Repr

/-- An inflated obstacle (`{id, left, right, top, bottom}`). -/
structure Obstacle where
  id : ℕ
  left : ℚ
  right : ℚ
  top : ℚ
  bottom : ℚ
deriving DecidableEq, Repr

/-- The merged routing configuration (`{...DEFAULTS, ...config}` in JS).
`sourceDir` / `targetDir` are optional in the source (`cfg.sourceDir || 'bottom'`),
hence `Option Dir` here.  `earlyBendBias` is the option the orchestrator sets
for labelled edges. -/
structure Config where
  padding : ℚ
  sourceStubLength : ℚ
  targetStubLength : ℚ
  bendPenalty : ℚ
  nodeWidth : ℚ
  nodeHeight : ℚ
  edgeSeparation : ℚ
  bendRadius : ℚ
  earlyBendBias : ℚ
  sourceDir : Option Dir
  targetDir : Option Dir
deriving DecidableEq, Repr

/-- `DEFAULTS` from `src/lib/defaults.js` (routing-relevant fields; the two
colour/stroke entries are strings that never reach the router).  `DEFAULTS`
has no `earlyBendBias`, `sourceDir` or `targetDir` entry: a config that does
not set them leaves them absent (`undefined`), which we render as `0` for the
numeric field (absent numeric option never read by the router) and `none`. -/
def DEFAULTS : Config :=
  { padding := 20
    sourceStubLength := 20
    targetStubLength := 20
    bendPenalty := 1
    nodeWidth := 150
    nodeHeight := 60
    edgeSeparation := 5
    bendRadius := 8
    earlyBendBias := 0
    sourceDir := none
    targetDir := none }

/-- `inflateObstacles(nodes, padding)`. -/
def inflateObstacles (nodes : List NodeRect) (padding : ℚ) : List Obstacle :=
  nodes.map fun n =>
    { id := n.id
      left := n.x - padding
      right := n.x + n.width + padding
      top := n.y - padding
      bottom := n.y + n.height + padding }

/-- `pointStrictlyInsideAnyObstacle(x, y, obstacles)`. -/
def pointStrictlyInsideAnyObstacle (x y : ℚ) (obstacles : List Obstacle) : Bool :=
  obstacles.any fun o =>
    decide (x > o.left) && decide (x < o.right) && decide (y > o.top) && decide (y < o.bottom)

/-- `segmentCrossesAnyObstacle(orientation, fixedCoord, start, end, obstacles)`. -/
def segmentCrossesAnyObstacle (orientation : Axis) (fixedCoord s e : ℚ)
    (obstacles : List Obstacle) : Bool :=
  let lo := min s e
  let hi := max s e
  obstacles.any fun o =>
    match orientation with
    | .h =>
        decide (fixedCoord > o.top) && decide (fixedCoord < o.bottom) &&
          decide (hi > o.left) && decide (lo < o.right)
    | .v =>
        decide (fixedCoord > o.left) && decide (fixedCoord < o.right) &&
          decide (hi > o.top) && decide (lo < o.bottom)

/-- Inner loop of `dedup` (`prev` is the last kept point). -/
def dedupGo (prev : Point) : List Point → List Point
  | [] => []
  | p :: rest => if p = prev then dedupGo prev rest else p :: dedupGo p rest

/-- `dedup(points)`: drop points equal to the previously kept point. -/
def dedup : List Point → List Point
  | [] => []
  | p :: rest => p :: dedupGo p rest

/-- Inner loop of `simplifyPath`: `prev` is the last kept point, the list is
`points[i], points[i+1], …, points[n-1]`; the final point is always kept. -/
def simplifyGo (prev : Point) : List Point → List Point
  | [] => []
  | [last] => [last]
  | cur :: next :: rest =>
      if (prev.x = cur.x ∧ cur.x = next.x) ∨ (prev.y = cur.y ∧ cur.y = next.y) then
        simplifyGo prev (next :: rest)
      else
        cur :: simplifyGo cur (next :: rest)

/-- `simplifyPath(points)`: drop collinear middle points, then `dedup`. -/
def simplifyPath (points : List Point) : List Point :=
  match points with
  | p0 :: rest@(_ :: _ :: _) => dedup (p0 :: simplifyGo p0 rest)
  | _ => points

/-- `STUB_DELTAS[dir]` / `computeStubEnd(x, y, dir, length)` (an unknown
direction falls back to `bottom` via `STUB_DELTAS[dir] || STUB_DELTAS.bottom`;
with the `Dir` enumeration every direction is known). -/
def computeStubEnd (x y : ℚ) (dir : Dir) (length : ℚ) : Point :=
  match dir with
  | .bottom => ⟨x, y + length⟩
  | .top => ⟨x, y - length⟩
  | .left => ⟨x - length, y⟩
  | .right => ⟨x + length, y⟩

/-- `cfg.sourceDir || 'bottom'` and `cfg.targetDir || 'top'`. -/
def resolveDir (d : Option Dir) (dflt : Dir) : Dir := d.getD dflt

/-- A direction is vertical iff it is `top` or `bottom`. -/
def Dir.isVertical : Dir → Bool
  | .top => true
  | .bottom => true
  | _ => false

/-- `fallbackPath(sourceX, sourceY, targetX, targetY, cfg)`: the S-shaped
fallback polyline.  The JS function receives the whole config but reads only
`sourceDir`, `targetDir` and the two stub lengths, which are passed here
directly. -/
def fallbackPath (sourceX sourceY targetX targetY : ℚ) (srcDirO tgtDirO : Option Dir)
    (sLen tLen : ℚ) : List Point :=
  let srcDir := resolveDir srcDirO .bottom
  let tgtDir := resolveDir tgtDirO .top
  let stubSrc := computeStubEnd sourceX sourceY srcDir sLen
  let stubTgt := computeStubEnd targetX targetY tgtDir tLen
  if srcDir.isVertical ∧ tgtDir.isVertical then
    let midY := (stubSrc.y + stubTgt.y) / 2
    [⟨sourceX, sourceY⟩, stubSrc, ⟨stubSrc.x, midY⟩, ⟨stubTgt.x, midY⟩, stubTgt,
      ⟨targetX, targetY⟩]
  else if ¬srcDir.isVertical ∧ ¬tgtDir.isVertical then
    let midX := (stubSrc.x + stubTgt.x) / 2
    [⟨sourceX, sourceY⟩, stubSrc, ⟨midX, stubSrc.y⟩, ⟨midX, stubTgt.y⟩, stubTgt,
      ⟨targetX, targetY⟩]
  else
    [⟨sourceX, sourceY⟩, stubSrc, ⟨stubTgt.x, stubSrc.y⟩, stubTgt, ⟨targetX, targetY⟩]

/-! ### Guide coordinates, waypoints and adjacency

JS `Set` keeps insertion order and `Array.from(set).sort((a,b)=>a-b)` sorts
numerically; we model a set as an insertion-ordered duplicate-free list and
sort it.  JS `Map`s (`wpIndex`, `byX`, `byY`) are modelled by lookups over
the insertion-ordered lists they are built from. -/

/-- `Set.add`: append if not already present. -/
def addToSet (l : List ℚ) (v : ℚ) : List ℚ :=
  if v ∈ l then l else l ++ [v]

/-- Guide coordinates: the stub coordinate followed by the obstacle bounds,
deduplicated in insertion order, then sorted ascending. -/
def guideCoords (a b : ℚ) (obstacleCoords : List (ℚ × ℚ)) : List ℚ :=
  let raw := obstacleCoords.foldl (fun acc p => addToSet (addToSet acc p.1) p.2)
    (addToSet (addToSet [] a) b)
  List.insertionSort (fun u v => u ≤ v) raw

/-- `addWaypoint(x, y)` as used inside the grid double loop (result index
unused there): keep the list unchanged when the point is already present or
strictly inside an obstacle. -/
def addWaypointList (obstacles : List Obstacle) (wps : List Point) (x y : ℚ) : List Point :=
  if ⟨x, y⟩ ∈ wps then wps
  else if pointStrictlyInsideAnyObstacle x y obstacles then wps
  else wps ++ [⟨x, y⟩]

/-- The waypoint list generated by the `for x of xs / for y of ys` loop. -/
def buildWaypoints (obstacles : List Obstacle) (xs ys : List ℚ) : List Point :=
  xs.foldl (fun acc x => ys.foldl (fun acc' y => addWaypointList obstacles acc' x y) acc) []

/-- The `wpIndex` lookup: the position of `p` in the waypoint list (offset by
the running index `i`). -/
def lookupIdx (p : Point) : List Point → ℕ → Option ℕ
  | [], _ => none
  | q :: rest, i => if q = p then some i else lookupIdx p rest (i + 1)

/-- `addWaypoint` when its returned index matters (the two "ensure start/end
are in the graph" calls): `none` models JS `-1`. -/
def addWaypointIdx (obstacles : List Obstacle) (wps : List Point) (x y : ℚ) :
    List Point × Option ℕ :=
  match lookupIdx ⟨x, y⟩ wps 0 with
  | some i => (wps, some i)
  | none =>
      if pointStrictlyInsideAnyObstacle x y obstacles then (wps, none)
      else (wps ++ [⟨x, y⟩], some wps.length)

/-- First occurrences of a list of coordinates, in order — the key order of a
JS `Map` populated by iterating the waypoints. -/
def firstOccs (l : List ℚ) : List ℚ :=
  l.foldl addToSet []

/-- An adjacency entry `{neighbor, dist, dir}`. -/
structure Entry where
  neighbor : ℕ
  dist : ℚ
  dir : Axis
deriving DecidableEq, Repr

/-- `adj[i].push(e)` (lists indexed by waypoint index; out-of-range is a
no-op, which never happens for indices produced by the construction). -/
def adjPush (adj : List (List Entry)) (i : ℕ) (e : Entry) : List (List Entry) :=
  adj.set i ((adj.getD i []) ++ [e])

/-- Consecutive pairs `list[i], list[i+1]` of a list. -/
def consecPairs {α : Type} (l : List α) : List (α × α) :=
  l.zip l.tail

/-- One `byX` column: the waypoints (with their indices) at `x`, sorted by
`y` (they are generated in ascending `y` order already; the JS code sorts
anyway, and insertion sort is stable like the JS engine sort). -/
def columnAt (iwps : List (ℕ × Point)) (x : ℚ) : List (ℕ × Point) :=
  List.insertionSort (fun a b => a.2.y ≤ b.2.y) (iwps.filter fun p => p.2.x = x)

/-- One `byY` row: the waypoints (with their indices) at `y`, sorted by `x`. -/
def rowAt (iwps : List (ℕ × Point)) (y : ℚ) : List (ℕ × Point) :=
  List.insertionSort (fun a b => a.2.x ≤ b.2.x) (iwps.filter fun p => p.2.y = y)

/-- Add the two directed entries for one vertical candidate pair, guarded by
the obstacle test. -/
def addVerticalPair (obstacles : List Obstacle) (x : ℚ) (adj : List (List Entry))
    (ab : (ℕ × Point) × (ℕ × Point)) : List (List Entry) :=
  let a := ab.1
  let b := ab.2
  if segmentCrossesAnyObstacle .v x a.2.y b.2.y obstacles then adj
  else
    let d := |b.2.y - a.2.y|
    adjPush (adjPush adj a.1 ⟨b.1, d, .v⟩) b.1 ⟨a.1, d, .v⟩

/-- Add the two directed entries for one horizontal candidate pair. -/
def addHorizontalPair (obstacles : List Obstacle) (y : ℚ) (adj : List (List Entry))
    (ab : (ℕ × Point) × (ℕ × Point)) : List (List Entry) :=
  let a := ab.1
  let b := ab.2
  if segmentCrossesAnyObstacle .h y a.2.x b.2.x obstacles then adj
  else
    let d := |b.2.x - a.2.x|
    adjPush (adjPush adj a.1 ⟨b.1, d, .h⟩) b.1 ⟨a.1, d, .h⟩

/-- The full adjacency construction: vertical pass over the `byX` columns,
then horizontal pass over the `byY` rows. -/
def buildAdjacency (obstacles : List Obstacle) (wps : List Point) : List (List Entry) :=
  let iwps := wps.enum
  let init : List (List Entry) := List.replicate wps.length []
  let afterV := (firstOccs (wps.map (·.x))).foldl
    (fun adj x => (consecPairs (columnAt iwps x)).foldl (addVerticalPair obstacles x) adj)
    init
  (firstOccs (wps.map (·.y))).foldl
    (fun adj y => (consecPairs (rowAt iwps y)).foldl (addHorizontalPair obstacles y) adj)
    afterV

/-! ### Binary min-heap (`MinHeap`) -/

/-- A heap item `{cost, idx}`. -/
structure HeapItem where
  cost : ℚ
  idx : ℕ
deriving DecidableEq, Repr, Inhabited

/-- Size-preserving array write (`data[i] = v`; `List.set` ignores
out-of-range writes, which the heap never performs). -/
def hset (data : List HeapItem) (i : ℕ) (v : HeapItem) : List HeapItem :=
  data.set i v

/-- Swap `data[i]` and `data[j]`. -/
def hswap (data : List HeapItem) (i j : ℕ) : List HeapItem :=
  match data.get? i, data.get? j with
  | some a, some b => hset (hset data i b) j a
  | _, _ => data

/-- `_bubbleUp(i)`, fuelled (the index strictly decreases, so any fuel above
the starting index is enough; structural recursion keeps the function
kernel-reducible). -/
def bubbleUp : ℕ → List HeapItem → ℕ → List HeapItem
  | 0, data, _ => data
  | fuel + 1, data, i =>
      if i = 0 then data
      else
        let pIdx := (i - 1) / 2
        match data.get? i, data.get? pIdx with
        | some c, some p =>
            if c.cost < p.cost then bubbleUp fuel (hswap data i pIdx) pIdx
            else data
        | _, _ => data

/-- `_sinkDown(0)` body, fuelled (the fuel is the heap size, which bounds the
number of iterations since the index strictly grows). -/
def sinkDown (fuel : ℕ) (data : List HeapItem) (i : ℕ) : List HeapItem :=
  match fuel with
  | 0 => data
  | fuel + 1 =>
      let n := data.length
      let l := 2 * i + 1
      let r := 2 * i + 2
      let s1 := if l < n ∧ ((data.getD l default).cost < (data.getD i default).cost)
        then l else i
      let smallest := if r < n ∧ ((data.getD r default).cost < (data.getD s1 default).cost)
        then r else s1
      if smallest = i then data
      else sinkDown fuel (hswap data i smallest) smallest

/-- `push(item)`. -/
def heapPush (data : List HeapItem) (item : HeapItem) : List HeapItem :=
  bubbleUp (data.length + 1) (data ++ [item]) data.length

/-- `pop()`: returns the removed top and the new heap.  The router only pops
non-empty heaps (`while (heap.size > 0)`); an empty pop yields `none`. -/
def heapPop (data : List HeapItem) : Option HeapItem × List HeapItem :=
  match data with
  | [] => (none, [])
  | top :: _ =>
      let rest := data.dropLast
      let last := data.getLastD top
      if rest.length > 0 then
        (some top, sinkDown rest.length (hset rest 0 last) 0)
      else
        (some top, rest)

/-! ### Dijkstra with bend penalty -/

/-- Mutable Dijkstra state: `dist` (`none` = `Infinity`), `prev`
(`none` = `-1`), `prevDir` (`none` = `null`), `visited`, and the heap. -/
structure DState where
  dist : List (Option ℚ)
  prev : List (Option ℕ)
  prevDir : List (Option Axis)
  visited : List Bool
  heap : List HeapItem
deriving Repr

/-- `newCost < dist[neighbor]` where `none` is `Infinity`. -/
def ltOpt (c : ℚ) : Option ℚ → Bool
  | none => true
  | some d => decide (c < d)

/-- The body of the relaxation loop for a single adjacency entry. -/
def relaxOne (bendPenalty : ℚ) (idx : ℕ) (cost : ℚ) (st : DState) (e : Entry) : DState :=
  if st.visited.getD e.neighbor false then st
  else
    let bendCost : ℚ :=
      match st.prevDir.getD idx none with
      | none => 0
      | some d => if d ≠ e.dir then bendPenalty else 0
    let newCost := cost + e.dist + bendCost
    if ltOpt newCost (st.dist.getD e.neighbor none) then
      { st with
        dist := st.dist.set e.neighbor (some newCost)
        prev := st.prev.set e.neighbor (some idx)
        prevDir := st.prevDir.set e.neighbor (some e.dir)
        heap := heapPush st.heap ⟨newCost, e.neighbor⟩ }
    else st

/-- The `while (heap.size > 0)` loop, fuelled.  Any fuel at least
`1 + Σ |adj[i]|` is enough: every pop consumes an item and at most
`Σ |adj[i]|` pushes can ever happen (each node is expanded at most once). -/
def dijkstraLoop (adj : List (List Entry)) (bendPenalty : ℚ) (endIdx : ℕ) :
    ℕ → DState → DState
  | 0, st => st
  | fuel + 1, st =>
      match heapPop st.heap with
      | (none, _) => st
      | (some item, heap') =>
          let st1 : DState := { st with heap := heap' }
          if st1.visited.getD item.idx false then
            dijkstraLoop adj bendPenalty endIdx fuel st1
          else
            let st2 : DState := { st1 with visited := st1.visited.set item.idx true }
            if item.idx = endIdx then st2
            else
              dijkstraLoop adj bendPenalty endIdx fuel
                ((adj.getD item.idx []).foldl (relaxOne bendPenalty item.idx item.cost) st2)

/-- The initial Dijkstra state. -/
def initDState (n startIdx : ℕ) : DState :=
  { dist := (List.replicate n (none : Option ℚ)).set startIdx (some 0)
    prev := List.replicate n none
    prevDir := List.replicate n none
    visited := List.replicate n false
    heap := [⟨0, startIdx⟩] }

/-- Fuel that dominates the number of loop iterations. -/
def dijkstraFuel (adj : List (List Entry)) : ℕ :=
  1 + (adj.map List.length).sum

/-- The run of the Dijkstra phase. -/
def runDijkstra (adj : List (List Entry)) (bendPenalty : ℚ) (n startIdx endIdx : ℕ) : DState :=
  dijkstraLoop adj bendPenalty endIdx (dijkstraFuel adj) (initDState n startIdx)

/-- The `while (cur !== -1)` predecessor walk (before the final `reverse`),
fuelled; the fuel never runs out because predecessor chains strictly descend
the visit order. -/
def walkPrev (prev : List (Option ℕ)) : ℕ → ℕ → List ℕ
  | 0, cur => [cur]
  | fuel + 1, cur =>
      match prev.getD cur none with
      | none => [cur]
      | some p => cur :: walkPrev prev fuel p

/-! ### `computeOrthogonalPath`

The pipeline stages are named definitions over the primitive inputs
`(sx, sy, tx, ty, allNodes)` and the configuration fields the JS function
actually reads (`padding`, `sourceStubLength`, `targetStubLength`,
`bendPenalty`, `sourceDir`, `targetDir`); `computeOrthogonalPath` projects
them out of the merged `Config`.  (`bendRadius` is read only for the
unmodelled SVG string; `earlyBendBias` is never read.) -/

/-- `sourceStubEnd`. -/
def routerStubSrc (sx sy : ℚ) (srcDirO : Option Dir) (sLen : ℚ) : Point :=
  computeStubEnd sx sy (resolveDir srcDirO .bottom) sLen

/-- `targetStubStart`. -/
def routerStubTgt (tx ty : ℚ) (tgtDirO : Option Dir) (tLen : ℚ) : Point :=
  computeStubEnd tx ty (resolveDir tgtDirO .top) tLen

/-- The near-overlap shortcut condition: both stubs vertical, stub `x`s within
1px, and the source stub end at or below the target stub start. -/
def trivialCond (sx sy tx ty : ℚ) (srcDirO tgtDirO : Option Dir) (sLen tLen : ℚ) : Bool :=
  let sSrc := routerStubSrc sx sy srcDirO sLen
  let sTgt := routerStubTgt tx ty tgtDirO tLen
  (resolveDir srcDirO .bottom).isVertical && (resolveDir tgtDirO .top).isVertical &&
    decide (|sSrc.x - sTgt.x| < 1) && decide (sSrc.y ≥ sTgt.y)

/-- The inflated obstacle list. -/
def routerObstacles (allNodes : List NodeRect) (padding : ℚ) : List Obstacle :=
  inflateObstacles allNodes padding

/-- The sorted `x` guide coordinates. -/
def routerXs (sx sy tx ty : ℚ) (allNodes : List NodeRect)
    (padding : ℚ) (srcDirO tgtDirO : Option Dir) (sLen tLen : ℚ) : List ℚ :=
  guideCoords (routerStubSrc sx sy srcDirO sLen).x (routerStubTgt tx ty tgtDirO tLen).x
    ((routerObstacles allNodes padding).map fun o => (o.left, o.right))

/-- The sorted `y` guide coordinates. -/
def routerYs (sx sy tx ty : ℚ) (allNodes : List NodeRect)
    (padding : ℚ) (srcDirO tgtDirO : Option Dir) (sLen tLen : ℚ) : List ℚ :=
  guideCoords (routerStubSrc sx sy srcDirO sLen).y (routerStubTgt tx ty tgtDirO tLen).y
    ((routerObstacles allNodes padding).map fun o => (o.top, o.bottom))

/-- The waypoint list after the grid loop and both "ensure present" calls
(the ensure calls never extend the list, since the stub coordinates are
already guide coordinates, but are modelled faithfully). -/
def routerWps (sx sy tx ty : ℚ) (allNodes : List NodeRect)
    (padding : ℚ) (srcDirO tgtDirO : Option Dir) (sLen tLen : ℚ) : List Point :=
  let obstacles := routerObstacles allNodes padding
  let sSrc := routerStubSrc sx sy srcDirO sLen
  let sTgt := routerStubTgt tx ty tgtDirO tLen
  let wps0 := buildWaypoints obstacles
    (routerXs sx sy tx ty allNodes padding srcDirO tgtDirO sLen tLen)
    (routerYs sx sy tx ty allNodes padding srcDirO tgtDirO sLen tLen)
  let wps1 := (addWaypointIdx obstacles wps0 sSrc.x sSrc.y).1
  (addWaypointIdx obstacles wps1 sTgt.x sTgt.y).1

/-- `startIdx` (`none` = `-1`). -/
def routerStartIdx (sx sy tx ty : ℚ) (allNodes : List NodeRect)
    (padding : ℚ) (srcDirO tgtDirO : Option Dir) (sLen tLen : ℚ) : Option ℕ :=
  let obstacles := routerObstacles allNodes padding
  let sSrc := routerStubSrc sx sy srcDirO sLen
  let wps0 := buildWaypoints obstacles
    (routerXs sx sy tx ty allNodes padding srcDirO tgtDirO sLen tLen)
    (routerYs sx sy tx ty allNodes padding srcDirO tgtDirO sLen tLen)
  (addWaypointIdx obstacles wps0 sSrc.x sSrc.y).2

/-- `endIdx` (`none` = `-1`). -/
def routerEndIdx (sx sy tx ty : ℚ) (allNodes : List NodeRect)
    (padding : ℚ) (srcDirO tgtDirO : Option Dir) (sLen tLen : ℚ) : Option ℕ :=
  let obstacles := routerObstacles allNodes padding
  let sSrc := routerStubSrc sx sy srcDirO sLen
  let sTgt := routerStubTgt tx ty tgtDirO tLen
  let wps0 := buildWaypoints obstacles
    (routerXs sx sy tx ty allNodes padding srcDirO tgtDirO sLen tLen)
    (routerYs sx sy tx ty allNodes padding srcDirO tgtDirO sLen tLen)
  let wps1 := (addWaypointIdx obstacles wps0 sSrc.x sSrc.y).1
  (addWaypointIdx obstacles wps1 sTgt.x sTgt.y).2

/-- The adjacency over the final waypoint list. -/
def routerAdj (sx sy tx ty : ℚ) (allNodes : List NodeRect)
    (padding : ℚ) (srcDirO tgtDirO : Option Dir) (sLen tLen : ℚ) : List (List Entry) :=
  buildAdjacency (routerObstacles allNodes padding)
    (routerWps sx sy tx ty allNodes padding srcDirO tgtDirO sLen tLen)

/-- The final Dijkstra state (only meaningful when both indices exist). -/
def routerDState (sx sy tx ty : ℚ) (allNodes : List NodeRect)
    (padding : ℚ) (srcDirO tgtDirO : Option Dir) (sLen tLen bp : ℚ) (s e : ℕ) : DState :=
  runDijkstra (routerAdj sx sy tx ty allNodes padding srcDirO tgtDirO sLen tLen) bp
    (routerWps sx sy tx ty allNodes padding srcDirO tgtDirO sLen tLen).length s e

/-- `dist[endIdx]` after the Dijkstra phase; `none` when a stub endpoint was
rejected or the target was never relaxed (`Infinity`). -/
def routerDistEnd (sx sy tx ty : ℚ) (allNodes : List NodeRect)
    (padding : ℚ) (srcDirO tgtDirO : Option Dir) (sLen tLen bp : ℚ) : Option ℚ :=
  match routerStartIdx sx sy tx ty allNodes padding srcDirO tgtDirO sLen tLen,
      routerEndIdx sx sy tx ty allNodes padding srcDirO tgtDirO sLen tLen with
  | some s, some e =>
      (routerDState sx sy tx ty allNodes padding srcDirO tgtDirO sLen tLen bp s e).dist.getD
        e none
  | _, _ => none

/-- The non-shortcut part of `computeOrthogonalPath` (grid, Dijkstra,
fallback, reconstruction, simplification). -/
def routeViaGrid (sx sy tx ty : ℚ) (allNodes : List NodeRect)
    (padding : ℚ) (srcDirO tgtDirO : Option Dir) (sLen tLen bp : ℚ) : List Point :=
  match routerStartIdx sx sy tx ty allNodes padding srcDirO tgtDirO sLen tLen,
      routerEndIdx sx sy tx ty allNodes padding srcDirO tgtDirO sLen tLen with
  | some s, some e =>
      let wps := routerWps sx sy tx ty allNodes padding srcDirO tgtDirO sLen tLen
      let st := routerDState sx sy tx ty allNodes padding srcDirO tgtDirO sLen tLen bp s e
      match st.dist.getD e none with
      | none => simplifyPath (fallbackPath sx sy tx ty srcDirO tgtDirO sLen tLen)
      | some _ =>
          let pathIndices := (walkPrev st.prev (wps.length + 1) e).reverse
          let fullPoints :=
            ⟨sx, sy⟩ :: routerStubSrc sx sy srcDirO sLen ::
              (pathIndices.map fun i => wps.getD i ⟨0, 0⟩) ++
                [routerStubTgt tx ty tgtDirO tLen, ⟨tx, ty⟩]
          simplifyPath (dedup fullPoints)
  | _, _ => simplifyPath (fallbackPath sx sy tx ty srcDirO tgtDirO sLen tLen)

/-- `computeOrthogonalPath` over the explicit configuration fields it reads. -/
def computeCore (sx sy tx ty : ℚ) (allNodes : List NodeRect)
    (padding : ℚ) (srcDirO tgtDirO : Option Dir) (sLen tLen bp : ℚ) : List Point :=
  if trivialCond sx sy tx ty srcDirO tgtDirO sLen tLen then
    simplifyPath (dedup [⟨sx, sy⟩, routerStubSrc sx sy srcDirO sLen,
      routerStubTgt tx ty tgtDirO tLen, ⟨tx, ty⟩])
  else
    routeViaGrid sx sy tx ty allNodes padding srcDirO tgtDirO sLen tLen bp

/-- `computeOrthogonalPath(sourceX, sourceY, targetX, targetY, allNodes, config)`
(the `points` component of the result; the SVG string is not modelled). -/
def computeOrthogonalPath (sx sy tx ty : ℚ) (allNodes : List NodeRect) (cfg : Config) :
    List Point :=
  computeCore sx sy tx ty allNodes cfg.padding cfg.sourceDir cfg.targetDir
    cfg.sourceStubLength cfg.targetStubLength cfg.bendPenalty

/-! ### `separateOverlappingEdges` (overlap separator)

Modelled on the polyline lists (`points` of each `{id, points}` record;
ids are positional and the SVG strings are not modelled). -/

/-- The separator's tolerance `EPS = 0.01`. -/
def EPS : ℚ := 1 / 100

/-- An extracted routable segment record. -/
structure Seg where
  edgeIdx : ℕ
  segIdx : ℕ
  orientation : Axis
  fixedCoord : ℚ
  lo : ℚ
  hi : ℚ
deriving DecidableEq, Repr

/-- Step 1 for one edge: the routable segments `1→2 … (len-3)→(len-2)`,
classified with the `EPS` tolerance. -/
def segsOfEdge (ei : ℕ) (pts : List Point) : List Seg :=
  if pts.length < 4 then []
  else
    (List.range' 1 (pts.length - 3)).filterMap fun si =>
      let p1 := pts.getD si ⟨0, 0⟩
      let p2 := pts.getD (si + 1) ⟨0, 0⟩
      let dx := |p1.x - p2.x|
      let dy := |p1.y - p2.y|
      if dy < EPS ∧ dx > EPS then
        some ⟨ei, si, .h, p1.y, min p1.x p2.x, max p1.x p2.x⟩
      else if dx < EPS ∧ dy > EPS then
        some ⟨ei, si, .v, p1.x, min p1.y p2.y, max p1.y p2.y⟩
      else none

/-- All routable segments of the batch. -/
def allSegmentsOf (edgePaths : List (List Point)) : List Seg :=
  (edgePaths.enum.map fun ep => segsOfEdge ep.1 ep.2).flatten

/-- Append `v` to the value list of `k` in an insertion-ordered association
list (JS `Map` with push). -/
def assocAppend {κ ν : Type} [DecidableEq κ] (m : List (κ × List ν)) (k : κ) (v : ν) :
    List (κ × List ν) :=
  if (m.lookup k).isSome then
    m.map fun kv => if kv.1 = k then (kv.1, kv.2 ++ [v]) else kv
  else m ++ [(k, [v])]

/-- Step 2: group segments by `(orientation, fixedCoord)` in insertion order. -/
def groupSegments (segs : List Seg) : List ((Axis × ℚ) × List Seg) :=
  segs.foldl (fun m s => assocAppend m (s.orientation, s.fixedCoord) s) []

/-- The sweep that splits a `lo`-sorted segment list into clusters of
pairwise-overlapping ranges (touching within `EPS` counts). -/
def sweepClusters (sorted : List Seg) : List (List Seg) :=
  match sorted with
  | [] => []
  | s0 :: rest =>
      let step := fun (acc : List (List Seg) × List Seg × ℚ) (s : Seg) =>
        if s.lo ≤ acc.2.2 + EPS then (acc.1, acc.2.1 ++ [s], max acc.2.2 s.hi)
        else (acc.1 ++ [acc.2.1], [s], s.hi)
      let fin := rest.foldl step ([], [s0], s0.hi)
      fin.1 ++ [fin.2.1]

/-- First-occurrence edge order of a cluster (`seen` / `edgeOrder`). -/
def edgeOrderOf (cl : List Seg) : List ℕ :=
  cl.foldl (fun acc s => if s.edgeIdx ∈ acc then acc else acc ++ [s.edgeIdx]) []

/-- Offsets from one cluster: edge at rank `i` of `N` receives
`(i − (N−1)/2) · separation`, recorded for each of its segments. -/
def clusterOffsets (separation : ℚ) (cl : List Seg) : List ((ℕ × ℕ) × ℚ) :=
  let edgeOrder := edgeOrderOf cl
  if edgeOrder.length < 2 then []
  else
    let n := edgeOrder.length
    (List.range n).flatMap fun i =>
      let offset := ((i : ℚ) - ((n : ℚ) - 1) / 2) * separation
      let ei := edgeOrder.getD i 0
      (cl.filter fun s => s.edgeIdx = ei).map fun s => ((s.edgeIdx, s.segIdx), offset)

/-- Offsets contributed by one group (skip groups with fewer than two
segments or fewer than two distinct edges; sort by range start, sweep,
assign center-spread offsets). -/
def groupOffsets (separation : ℚ) (segs : List Seg) : List ((ℕ × ℕ) × ℚ) :=
  if segs.length < 2 then []
  else if ((segs.map (·.edgeIdx)).dedup).length < 2 then []
  else
    let sorted := List.insertionSort (fun a b => a.lo ≤ b.lo) segs
    ((sweepClusters sorted).map (clusterOffsets separation)).flatten

/-- The full offsets map (each key is written at most once, so an
insertion-ordered association list with first-hit lookup is faithful). -/
def offsetsOf (separation : ℚ) (edgePaths : List (List Point)) : List ((ℕ × ℕ) × ℚ) :=
  ((groupSegments (allSegmentsOf edgePaths)).map fun g => groupOffsets separation g.2).flatten

/-- Step 4a: apply the perpendicular offsets to one edge's points (reads are
from the original `pts`, writes mutate single fields of `adjusted`, junction
indices `0`, `1`, `len-2`, `len-1` are never written). -/
def applyOffsets (offsets : List ((ℕ × ℕ) × ℚ)) (ei : ℕ) (pts : List Point) : List Point :=
  (List.range' 1 (pts.length - 3)).foldl
    (fun adjusted i =>
      match offsets.lookup (ei, i) with
      | none => adjusted
      | some off =>
          if off = 0 then adjusted
          else
            let p1 := pts.getD i ⟨0, 0⟩
            let p2 := pts.getD (i + 1) ⟨0, 0⟩
            if |p1.y - p2.y| < EPS then
              let a1 := if 2 ≤ i then
                adjusted.set i ⟨(adjusted.getD i ⟨0, 0⟩).x, p1.y + off⟩ else adjusted
              if i + 1 ≤ pts.length - 3 then
                a1.set (i + 1) ⟨(a1.getD (i + 1) ⟨0, 0⟩).x, p2.y + off⟩ else a1
            else if |p1.x - p2.x| < EPS then
              let a1 := if 2 ≤ i then
                adjusted.set i ⟨p1.x + off, (adjusted.getD i ⟨0, 0⟩).y⟩ else adjusted
              if i + 1 ≤ pts.length - 3 then
                a1.set (i + 1) ⟨p2.x + off, (a1.getD (i + 1) ⟨0, 0⟩).y⟩ else a1
            else adjusted)
    pts

/-- Step 5: the re-orthogonalisation walk.  `rres` is the result so far in
reverse (the JS code appends and reads/mutates the last element).  `fuel`
dominates the remaining iterations (`adjusted.length` at the start). -/
def walkFix (adjusted : List Point) (lastI : ℕ) : ℕ → ℕ → List Point → List Point
  | 0, _, rres => rres
  | _, _, [] => []
  | fuel + 1, i, prev :: rtail =>
      if i < adjusted.length then
        let cur := adjusted.getD i ⟨0, 0⟩
        if |prev.x - cur.x| > EPS ∧ |prev.y - cur.y| > EPS then
          if (prev :: rtail).length = 2 then
            walkFix adjusted lastI fuel (i + 1) (cur :: ⟨prev.x, cur.y⟩ :: rtail)
          else if i = lastI - 1 then
            walkFix adjusted lastI fuel (i + 2)
              (adjusted.getD (i + 1) ⟨0, 0⟩ :: ⟨cur.x, prev.y⟩ :: prev :: rtail)
          else
            walkFix adjusted lastI fuel (i + 1) (cur :: ⟨prev.x, cur.y⟩ :: prev :: rtail)
        else
          walkFix adjusted lastI fuel (i + 1) (cur :: prev :: rtail)
      else prev :: rtail

/-- Step 4+5+6 for one edge: skip edges without any offset, otherwise apply
offsets, re-orthogonalise and simplify. -/
def separateOne (offsets : List ((ℕ × ℕ) × ℚ)) (ei : ℕ) (pts : List Point) : List Point :=
  let hasAny := (List.range' 1 (pts.length - 3)).any fun i =>
    (offsets.lookup (ei, i)).isSome
  if hasAny then
    let adjusted := applyOffsets offsets ei pts
    match adjusted with
    | [] => simplifyPath []
    | a0 :: _ =>
        simplifyPath ((walkFix adjusted (adjusted.length - 1) adjusted.length 1 [a0]).reverse)
  else pts

/-- `separateOverlappingEdges(edgePaths, separation, bendRadius)` (the
`points` of each returned record; `bendRadius` feeds only the unmodelled SVG
strings). -/
def separateOverlappingEdges (edgePaths : List (List Point)) (separation : ℚ)
    (_bendRadius : ℚ) : List (List Point) :=
  if separation ≤ 0 ∨ edgePaths.length ≤ 1 then edgePaths
  else
    let offsets := offsetsOf separation edgePaths
    if offsets.length = 0 then edgePaths
    else edgePaths.enum.map fun ep => separateOne offsets ep.1 ep.2

/-! ### `EdgeRoutingProvider.jsx`: handle resolution and merge entry -/

/-- A measured handle record (`{id, x, y, width, height, position}`;
handle-id strings such as `output-2` are abstracted to their identity as
keys — the router only ever compares them for equality). -/
structure HandleRec where
  hid : ℕ
  x : ℚ
  y : ℚ
  width : ℚ
  height : ℚ
  position : Option Dir
deriving DecidableEq, Repr

/-- `node.handleBounds` (`{source?, target?}`). -/
structure HandleBounds where
  source : Option (List HandleRec)
  target : Option (List HandleRec)
deriving DecidableEq, Repr

/-- The node-internals record fields read by the provider:
`positionAbsolute?.x/y ?? position.x/y`, `width ?? data?.width ?? …`,
`data?.outputs`, `data?.inputs`, `handleBounds`. -/
structure RFNode where
  position : Point
  positionAbsolute : Option Point
  width : Option ℚ
  height : Option ℚ
  dataWidth : Option ℚ
  dataHeight : Option ℚ
  dataOutputs : Option ℕ
  dataInputs : Option ℕ
  handleBounds : Option HandleBounds
deriving DecidableEq, Repr

/-- `node.positionAbsolute?.x ?? node.position.x`. -/
def nodeAbsX (n : RFNode) : ℚ := (n.positionAbsolute.map Point.x).getD n.position.x

/-- `node.positionAbsolute?.y ?? node.position.y`. -/
def nodeAbsY (n : RFNode) : ℚ := (n.positionAbsolute.map Point.y).getD n.position.y

/-- `node.width ?? node.data?.width ?? dflt`. -/
def nodeResWidth (n : RFNode) (dflt : ℚ) : ℚ := n.width.getD (n.dataWidth.getD dflt)

/-- `node.height ?? node.data?.height ?? dflt`. -/
def nodeResHeight (n : RFNode) (dflt : ℚ) : ℚ := n.height.getD (n.dataHeight.getD dflt)

/-- Resolved port info `{x, y, dir}`. -/
structure HandleInfo where
  x : ℚ
  y : ℚ
  dir : Dir
deriving DecidableEq, Repr

/-- Handle kind (`"source"` / `"target"`). -/
inductive HType where
  | source
  | target
deriving DecidableEq, Repr

/-- JS `a || 1` on `node.data?.outputs` (absent and `0` both give 1). -/
def orOne : Option ℕ → ℕ
  | none => 1
  | some 0 => 1
  | some t => t

/-- `getHandleInfo(node, handleId, handleType, cfg)`.  `handleId` is the
parsed zero-based index of the `output-<i>` / `input-<i>` id (`none` models a
missing id, which parses to index 0 via `parseInt(…) || 0`); measured handles
are matched by their abstract id key. -/
def getHandleInfo (node : RFNode) (handleId : Option ℕ) (handleType : HType)
    (cfg : Config) : HandleInfo :=
  let nodeX := nodeAbsX node
  let nodeY := nodeAbsY node
  let nodeWidth := nodeResWidth node cfg.nodeWidth
  let nodeHeight := nodeResHeight node cfg.nodeHeight
  let measured : Option HandleInfo :=
    match node.handleBounds with
    | none => none
    | some bounds =>
        match (match handleType with | .source => bounds.source | .target => bounds.target) with
        | none => none
        | some handles =>
            match handles.find? fun h => h.hid = handleId.getD 0 with
            | none => none
            | some h =>
                some
                  { x := nodeX + h.x + h.width / 2
                    y := nodeY + h.y + h.height / 2
                    dir := h.position.getD
                      (match handleType with | .source => .bottom | .target => .top) }
  match measured with
  | some info => info
  | none =>
      let idx : ℕ := handleId.getD 0
      match handleType with
      | .source =>
          let total := orOne node.dataOutputs
          { x := nodeX + (((idx : ℚ) + 1) / ((total : ℚ) + 1)) * nodeWidth
            y := nodeY + nodeHeight
            dir := .bottom }
      | .target =>
          let total := orOne node.dataInputs
          { x := nodeX + (((idx : ℚ) + 1) / ((total : ℚ) + 1)) * nodeWidth
            y := nodeY
            dir := .top }

/-- The default port-layout formula as the specification words it (§6): the
`i`-th of `N` handles on one side sits at perpendicular offset
`(i − (N−1)/2) · 8` from the side's midpoint.  Stated from the spec only, for
comparison with `getHandleInfo`'s synthesised fallback (this is also the
formula `SquareNode.jsx` actually renders with). -/
def specDefaultPortX (nodeX nodeWidth : ℚ) (i n : ℕ) : ℚ :=
  nodeX + nodeWidth / 2 + ((i : ℚ) - ((n : ℚ) - 1) / 2) * 8

/-- `getMergeTargetInfo(sourceNode, mergeNode, cfg)`. -/
def getMergeTargetInfo (sourceNode mergeNode : RFNode) (cfg : Config) : HandleInfo :=
  let srcX := nodeAbsX sourceNode
  let srcW := nodeResWidth sourceNode cfg.nodeWidth
  let srcCenterX := srcX + srcW / 2
  let tgtX := nodeAbsX mergeNode
  let tgtY := nodeAbsY mergeNode
  let tgtW := nodeResWidth mergeNode 40
  let tgtH := nodeResHeight mergeNode 40
  let tgtCenterX := tgtX + tgtW / 2
  let tgtCenterY := tgtY + tgtH / 2
  let dx := srcCenterX - tgtCenterX
  let threshold := tgtW / 2
  if dx < -threshold then { x := tgtX, y := tgtCenterY, dir := .left }
  else if dx > threshold then { x := tgtX + tgtW, y := tgtCenterY, dir := .right }
  else { x := tgtCenterX, y := tgtY, dir := .top }

/-! ### `dagreLayout.js`: `longestPathFromSource` (Kahn's BFS ranker) -/

/-- `(g.edge(e) || {}).minlen || 1` (absent or `0` becomes 1). -/
def resolveMinlen : Option ℤ → ℤ
  | none => 1
  | some m => if m = 0 then 1 else m

/-- A layout graph: node ids and edges `(v, w, minlen?)`. -/
structure LGraph where
  nodes : List ℕ
  edges : List (ℕ × ℕ × Option ℤ)
deriving DecidableEq, Repr

/-- The adjacency list of `v` (edges keep their input order). -/
def ladj (g : LGraph) (v : ℕ) : List (ℕ × ℤ) :=
  (g.edges.filter fun e => e.1 = v).map fun e => (e.2.1, resolveMinlen e.2.2)

/-- The initial in-degree of `w`. -/
def linDeg0 (g : LGraph) (w : ℕ) : ℤ :=
  ((g.edges.filter fun e => e.2.1 = w).length : ℤ)

/-- Kahn state: assigned ranks (`none` = not yet assigned), remaining
in-degrees, and the work queue. -/
structure KState where
  ranks : ℕ → Option ℤ
  inDeg : ℕ → ℤ
  queue : List ℕ

/-- Pointwise map update. -/
def fupd {ν : Type} (f : ℕ → ν) (k : ℕ) (v : ν) : ℕ → ν :=
  fun u => if u = k then v else f u

/-- Relax all out-edges of the dequeued node `id` (the loop body:
`child.rank = max(child.rank ?? 0, parentRank + minlen)`, decrement the
in-degree, enqueue on zero). -/
def kahnExpand (parentRank : ℤ) (st : KState) (cm : ℕ × ℤ) : KState :=
  let childId := cm.1
  let newRank := max ((st.ranks childId).getD 0) (parentRank + cm.2)
  let newDeg := st.inDeg childId - 1
  { ranks := fupd st.ranks childId (some newRank)
    inDeg := fupd st.inDeg childId newDeg
    queue := if newDeg = 0 then st.queue ++ [childId] else st.queue }

/-- The `while (queue.length)` loop, fuelled (at most one dequeue per node
plus one per edge can ever happen). -/
def kahnLoop (g : LGraph) : ℕ → KState → KState
  | 0, st => st
  | fuel + 1, st =>
      match st.queue with
      | [] => st
      | id :: rest =>
          let parentRank := (st.ranks id).getD 0
          kahnLoop g fuel
            ((ladj g id).foldl (kahnExpand parentRank) { st with queue := rest })

/-- `longestPathFromSource(g)`: the final rank assignment. -/
def longestPathFromSource (g : LGraph) : ℕ → Option ℤ :=
  let queue0 := g.nodes.filter fun n => linDeg0 g n = 0
  let st0 : KState :=
    { ranks := fun v => if v ∈ queue0 then some 0 else none
      inDeg := fun v => linDeg0 g v
      queue := queue0 }
  (kahnLoop g (g.nodes.length + g.edges.length + 1) st0).ranks

/-! ### Correctness predicates -/

/-- The two points differ on exactly one coordinate (spec §8, invariant 1). -/
def OrthoPair (p q : Point) : Prop :=
  (p.x = q.x ∧ p.y ≠ q.y) ∨ (p.x ≠ q.x ∧ p.y = q.y)

instance (p q : Point) : Decidable (OrthoPair p q) := by
  unfold OrthoPair
  infer_instance

/-- A structural-recursion decision procedure for `Chain'` (the Mathlib
instance does not reduce inside the kernel). -/
def chainDec (R : Point → Point → Prop) (dr : ∀ p q, Decidable (R p q)) :
    ∀ l : List Point, Decidable (l.Chain' R)
  | [] => .isTrue List.chain'_nil
  | [a] => .isTrue (List.chain'_singleton a)
  | a :: b :: l =>
      @decidable_of_iff _ _ (List.chain'_cons).symm
        (@instDecidableAnd _ _ (dr a b) (chainDec R dr (b :: l)))

/-- A polyline is orthogonal: consecutive points differ on exactly one
coordinate. -/
def Ortho (l : List Point) : Prop := l.Chain' OrthoPair

instance (l : List Point) : Decidable (Ortho l) :=
  chainDec OrthoPair inferInstance l

/-- The two points agree on a coordinate (weak orthogonality; degenerate
pairs allowed). -/
def WeakOrtho (p q : Point) : Prop := p.x = q.x ∨ p.y = q.y

instance (p q : Point) : Decidable (WeakOrtho p q) := by
  unfold WeakOrtho
  infer_instance

/-- The axis-aligned segment `p q` does not strictly enter any inflated
obstacle (spec §8, invariant 2, for one segment). -/
def pairAvoids (obstacles : List Obstacle) (p q : Point) : Prop :=
  (p.x = q.x ∧ segmentCrossesAnyObstacle .v p.x p.y q.y obstacles = false) ∨
    (p.y = q.y ∧ segmentCrossesAnyObstacle .h p.y p.x q.x obstacles = false)

instance (obstacles : List Obstacle) (p q : Point) : Decidable (pairAvoids obstacles p q) := by
  unfold pairAvoids
  infer_instance

/-- Every segment of the polyline avoids all obstacles. -/
def pathAvoids (obstacles : List Obstacle) (l : List Point) : Prop :=
  l.Chain' (pairAvoids obstacles)

instance (obstacles : List Obstacle) (l : List Point) : Decidable (pathAvoids obstacles l) :=
  chainDec (pairAvoids obstacles) inferInstance l

/-- A rational that is an integer. -/
def IsInt (q : ℚ) : Prop := ∃ n : ℤ, q = (n : ℚ)

/-- Integer-valued point. -/
def IntPoint (p : Point) : Prop := IsInt p.x ∧ IsInt p.y

/-- Soundness of an adjacency structure over a waypoint list: every entry
stays in range and its segment avoids all obstacles. -/
def AdjSound (obstacles : List Obstacle) (wps : List Point)
    (adj : List (List Entry)) : Prop :=
  ∀ u, ∀ en ∈ adj.getD u [], en.neighbor < wps.length ∧
    pairAvoids obstacles (wps.getD u ⟨0, 0⟩) (wps.getD en.neighbor ⟨0, 0⟩)

/-- The Dijkstra-loop invariant: array lengths are stable, and there is a
ghost visit-order list `vl` such that `visited` agrees with membership in
`vl`, every predecessor pointer was installed from an already-visited node
that occurs strictly earlier in `vl`, points into the adjacency structure,
and carries a finite distance, unvisited-unreached nodes are exactly the
prev-free ones besides the start, and every heap item is in range with a
finite distance. -/
def DInvVl (n s : ℕ) (adj : List (List Entry)) (st : DState) (vl : List ℕ) : Prop :=
  st.dist.length = n ∧ st.prev.length = n ∧ st.visited.length = n ∧
  vl.Nodup ∧
  (∀ v, st.visited.getD v false = true ↔ v ∈ vl) ∧
  (∀ v ∈ vl, v < n) ∧
  (∀ v u, st.prev.getD v none = some u →
    u ∈ vl ∧ (∀ pre suf, vl = pre ++ v :: suf → u ∈ pre) ∧ v < n ∧ u < n ∧
    st.dist.getD u none ≠ none ∧
    ∃ en ∈ adj.getD u [], en.neighbor = v) ∧
  (∀ v, v < n → st.prev.getD v none = none → v = s ∨ st.dist.getD v none = none) ∧
  (∀ item ∈ st.heap, item.idx < n ∧ st.dist.getD item.idx none ≠ none)

/-- The invariant with the ghost list quantified. -/
def DInv (n s : ℕ) (adj : List (List Entry)) (st : DState) : Prop :=
  ∃ vl : List ℕ, DInvVl n s adj st vl

/-! ### Endpoint preservation through `dedup` and `simplifyPath` -/

theorem dedupGo_getLast :
    ∀ (l : List Point) (prev d : Point),
      (prev :: dedupGo prev l).getLastD d = (prev :: l).getLastD d := by
  intro l
  induction l with
  | nil => intro prev d; rfl
  | cons p rest ih =>
      intro prev d
      by_cases h : p = prev
      · subst h
        simp only [dedupGo, if_pos rfl]
        have := ih p p
        simp only [List.getLastD_cons] at this ⊢
        exact this
      · simp only [dedupGo, if_neg h]
        have := ih p p
        simp only [List.getLastD_cons] at this ⊢
        exact this

theorem dedup_head (l : List Point) : (dedup l).head? = l.head? := by
  cases l with
  | nil => rfl
  | cons p rest => rfl

theorem dedup_getLast (d : Point) (l : List Point) :
    (dedup l).getLastD d = l.getLastD d := by
  cases l with
  | nil => rfl
  | cons p rest => exact dedupGo_getLast rest p d

theorem simplifyGo_getLast :
    ∀ (l : List Point) (prev d : Point),
      (prev :: simplifyGo prev l).getLastD d = (prev :: l).getLastD d := by
  intro l
  induction l with
  | nil => intro prev d; rfl
  | cons cur rest ih =>
      intro prev d
      cases rest with
      | nil => rfl
      | cons next rest2 =>
          simp only [simplifyGo]
          by_cases h : (prev.x = cur.x ∧ cur.x = next.x) ∨ (prev.y = cur.y ∧ cur.y = next.y)
          · rw [if_pos h, ih prev d]
            simp only [List.getLastD_cons]
          · rw [if_neg h]
            have := ih cur cur
            simp only [List.getLastD_cons] at this ⊢
            exact this

theorem simplifyPath_head (l : List Point) : (simplifyPath l).head? = l.head? := by
  match l with
  | [] => rfl
  | [a] => rfl
  | [a, b] => rfl
  | a :: b :: c :: rest => rfl

theorem simplifyPath_getLast (d : Point) (l : List Point) :
    (simplifyPath l).getLastD d = l.getLastD d := by
  match l with
  | [] => rfl
  | [a] => rfl
  | [a, b] => rfl
  | a :: b :: c :: rest =>
      show (dedup (a :: simplifyGo a (b :: c :: rest))).getLastD d = _
      rw [dedup_getLast, simplifyGo_getLast]

theorem getD_set_ne {α : Type} :
    ∀ (l : List α) (n m : ℕ) (v d : α), n ≠ m → (l.set n v).getD m d = l.getD m d := by
  intro l
  induction l with
  | nil => intro n m v d _; rfl
  | cons a t ih =>
      intro n m v d h
      cases n with
      | zero =>
          cases m with
          | zero => exact absurd rfl h
          | succ m => rfl
      | succ n =>
          cases m with
          | zero => rfl
          | succ m => exact ih n m v d (fun e => h (by rw [e]))

theorem length_ge_two_of_ends (l : List Point) (p : Point)
    (hh : l.head? = some p) (hl : l.getLastD p ≠ p) : 2 ≤ l.length := by
  match l with
  | [] => simp at hh
  | [a] =>
      obtain rfl : a = p := by simpa using hh
      simp [List.getLastD] at hl
  | a :: b :: rest => simp [Nat.le_add_left]

theorem getLastD_append_pair (t q : Point) :
    ∀ (m : List Point) (d : Point), (m ++ [t, q]).getLastD d = q := by
  intro m
  induction m with
  | nil => intro d; rfl
  | cons a m ih =>
      intro d
      rw [List.cons_append, List.getLastD_cons]
      exact ih a

/-- Both ports are preserved exactly: the first returned point is the source
port and the last is the target port (spec §8, invariant 4, for the single
edge router). -/
theorem computeCore_ends (sx sy tx ty : ℚ) (allNodes : List NodeRect)
    (padding : ℚ) (srcDirO tgtDirO : Option Dir) (sLen tLen bp : ℚ) :
    (computeCore sx sy tx ty allNodes padding srcDirO tgtDirO sLen tLen bp).head? =
        some ⟨sx, sy⟩ ∧
      (computeCore sx sy tx ty allNodes padding srcDirO tgtDirO sLen tLen bp).getLastD
        ⟨sx, sy⟩ = ⟨tx, ty⟩ := by
  unfold computeCore
  split
  · constructor
    · rw [simplifyPath_head, dedup_head]
      rfl
    · rw [simplifyPath_getLast, dedup_getLast]
      rfl
  · unfold routeViaGrid
    have hfb : ∀ d : Point,
        (fallbackPath sx sy tx ty srcDirO tgtDirO sLen tLen).head? = some ⟨sx, sy⟩ ∧
          (fallbackPath sx sy tx ty srcDirO tgtDirO sLen tLen).getLastD d = ⟨tx, ty⟩ := by
      intro d
      unfold fallbackPath
      dsimp only
      split
      · exact ⟨rfl, rfl⟩
      · split
        · exact ⟨rfl, rfl⟩
        · exact ⟨rfl, rfl⟩
    split
    · dsimp only
      split
      · constructor
        · rw [simplifyPath_head]
          exact (hfb ⟨sx, sy⟩).1
        · rw [simplifyPath_getLast]
          exact (hfb ⟨sx, sy⟩).2
      · constructor
        · dsimp only
          rw [simplifyPath_head, dedup_head]
          rfl
        · dsimp only
          rw [simplifyPath_getLast, dedup_getLast, getLastD_append_pair]
    · constructor
      · rw [simplifyPath_head]
        exact (hfb ⟨sx, sy⟩).1
      · rw [simplifyPath_getLast]
        exact (hfb ⟨sx, sy⟩).2

/-! ### Waypoints strictly inside an obstacle are rejected (for C8 and C2) -/

theorem foldl_preserve {α σ : Type} (Inv : σ → Prop) (f : σ → α → σ)
    (hstep : ∀ s a, Inv s → Inv (f s a)) :
    ∀ (l : List α) (s : σ), Inv s → Inv (l.foldl f s) := by
  intro l
  induction l with
  | nil => intro s hs; exact hs
  | cons a rest ih => intro s hs; exact ih _ (hstep s a hs)

theorem addWaypointList_not_inside (obstacles : List Obstacle) (wps : List Point) (x y : ℚ)
    (hw : ∀ p ∈ wps, pointStrictlyInsideAnyObstacle p.x p.y obstacles = false) :
    ∀ p ∈ addWaypointList obstacles wps x y,
      pointStrictlyInsideAnyObstacle p.x p.y obstacles = false := by
  intro p hp
  unfold addWaypointList at hp
  by_cases h1 : (⟨x, y⟩ : Point) ∈ wps
  · rw [if_pos h1] at hp
    exact hw p hp
  · rw [if_neg h1] at hp
    by_cases h2 : pointStrictlyInsideAnyObstacle x y obstacles = true
    · rw [if_pos h2] at hp
      exact hw p hp
    · rw [if_neg h2] at hp
      rcases List.mem_append.1 hp with h | h
      · exact hw p h
      · have hpe : p = ⟨x, y⟩ := by simpa using h
        subst hpe
        exact Bool.eq_false_iff.mpr h2

theorem buildWaypoints_not_inside (obstacles : List Obstacle) (xs ys : List ℚ) :
    ∀ p ∈ buildWaypoints obstacles xs ys,
      pointStrictlyInsideAnyObstacle p.x p.y obstacles = false := by
  unfold buildWaypoints
  refine foldl_preserve
    (fun acc => ∀ p : Point, p ∈ acc → pointStrictlyInsideAnyObstacle p.x p.y obstacles = false)
    _ ?_ xs [] (by intro p hp; cases hp)
  intro acc x hacc
  exact foldl_preserve _ _ (fun acc' y h => addWaypointList_not_inside obstacles acc' x y h)
    ys acc hacc

theorem addWaypointIdx_fst_not_inside (obstacles : List Obstacle) (wps : List Point) (x y : ℚ)
    (hw : ∀ p ∈ wps, pointStrictlyInsideAnyObstacle p.x p.y obstacles = false) :
    ∀ p ∈ (addWaypointIdx obstacles wps x y).1,
      pointStrictlyInsideAnyObstacle p.x p.y obstacles = false := by
  intro p hp
  unfold addWaypointIdx at hp
  rcases hL : lookupIdx ⟨x, y⟩ wps 0 with _ | i
  · rw [hL] at hp
    dsimp only at hp
    by_cases h2 : pointStrictlyInsideAnyObstacle x y obstacles = true
    · rw [if_pos h2] at hp
      exact hw p hp
    · rw [if_neg h2] at hp
      rcases List.mem_append.1 hp with h | h
      · exact hw p h
      · have hpe : p = ⟨x, y⟩ := by simpa using h
        subst hpe
        exact Bool.eq_false_iff.mpr h2
  · rw [hL] at hp
    exact hw p hp

theorem lookupIdx_none_of_not_mem (p : Point) :
    ∀ (l : List Point) (i : ℕ), p ∉ l → lookupIdx p l i = none := by
  intro l
  induction l with
  | nil => intro i _; rfl
  | cons q rest ih =>
      intro i hnm
      unfold lookupIdx
      rw [if_neg (fun (e : q = p) => hnm (e ▸ List.mem_cons_self q rest))]
      exact ih (i + 1) (fun hm => hnm (List.mem_cons_of_mem q hm))

theorem addWaypointIdx_snd_none_of_inside (obstacles : List Obstacle) (wps : List Point)
    (x y : ℚ)
    (hw : ∀ p ∈ wps, pointStrictlyInsideAnyObstacle p.x p.y obstacles = false)
    (h : pointStrictlyInsideAnyObstacle x y obstacles = true) :
    (addWaypointIdx obstacles wps x y).2 = none := by
  unfold addWaypointIdx
  have hnm : (⟨x, y⟩ : Point) ∉ wps := by
    intro hm
    have hni := hw _ hm
    dsimp only at hni
    rw [hni] at h
    cases h
  rw [lookupIdx_none_of_not_mem _ _ _ hnm]
  dsimp only
  rw [if_pos h]

theorem routerStartIdx_none_of_inside (sx sy tx ty : ℚ) (allNodes : List NodeRect)
    (padding : ℚ) (srcDirO tgtDirO : Option Dir) (sLen tLen : ℚ)
    (h : pointStrictlyInsideAnyObstacle (routerStubSrc sx sy srcDirO sLen).x
      (routerStubSrc sx sy srcDirO sLen).y (routerObstacles allNodes padding) = true) :
    routerStartIdx sx sy tx ty allNodes padding srcDirO tgtDirO sLen tLen = none := by
  unfold routerStartIdx
  dsimp only
  exact addWaypointIdx_snd_none_of_inside _ _ _ _ (buildWaypoints_not_inside _ _ _) h

theorem routerEndIdx_none_of_inside (sx sy tx ty : ℚ) (allNodes : List NodeRect)
    (padding : ℚ) (srcDirO tgtDirO : Option Dir) (sLen tLen : ℚ)
    (h : pointStrictlyInsideAnyObstacle (routerStubTgt tx ty tgtDirO tLen).x
      (routerStubTgt tx ty tgtDirO tLen).y (routerObstacles allNodes padding) = true) :
    routerEndIdx sx sy tx ty allNodes padding srcDirO tgtDirO sLen tLen = none := by
  unfold routerEndIdx
  dsimp only
  exact addWaypointIdx_snd_none_of_inside _ _ _ _
    (addWaypointIdx_fst_not_inside _ _ _ _ (buildWaypoints_not_inside _ _ _)) h

/-! ## Claims -/

/-- C1: the spec says that when `earlyBendBias > 0` the Dijkstra relaxation
adds `earlyBendBias · (y − sourcePort.y)` to horizontal segments, so the
returned points depend on its value.  The code never reads `earlyBendBias`
anywhere in `computeOrthogonalPath` (the relaxation at lines 399–412 adds
only segment length and `bendPenalty`), so the result is fully independent of
the option for every input — the documented feature is missing from the
code. -/
theorem claim_C1 (sx sy tx ty : ℚ) (allNodes : List NodeRect) (cfg : Config) (b : ℚ) :
    computeOrthogonalPath sx sy tx ty allNodes { cfg with earlyBendBias := b } =
      computeOrthogonalPath sx sy tx ty allNodes cfg := by
  cases cfg
  unfold computeOrthogonalPath
  dsimp only

/-- C6: the spec's default port-layout formula puts the `i`-th of `N`
synthesised handles at `(i − (N−1)/2) · 8` off the side midpoint (which is
what `SquareNode.jsx` actually renders, offset 71 for `output-0` of 2 on a
150-wide node at the origin), but `getHandleInfo`'s fallback computes the
fractional position `(i+1)/(N+1) · width` = 50 instead. -/
theorem claim_C6 :
    getHandleInfo ⟨⟨0, 0⟩, none, some 150, some 60, none, none, some 2, none, none⟩
        (some 0) .source DEFAULTS = ⟨50, 60, .bottom⟩ ∧
      specDefaultPortX 0 150 0 2 = 71 ∧ (50 : ℚ) ≠ 71 := by
  refine ⟨?_, ?_, ?_⟩ <;> with_unfolding_all decide

/-- C9: the merge-entry choice.  With `W` the merge's resolved width, the
orchestrator compares `sourceCentreX − mergeCentreX` against the threshold
`W/2`: below `−W/2` enters the left-side midpoint with direction `left`,
else above `W/2` enters the right-side midpoint with direction `right`,
otherwise the top-centre with direction `top`. -/
theorem claim_C9 (s m : RFNode) (cfg : Config) :
    ((nodeAbsX s + nodeResWidth s cfg.nodeWidth / 2) -
          (nodeAbsX m + nodeResWidth m 40 / 2) < -(nodeResWidth m 40 / 2) →
        getMergeTargetInfo s m cfg =
          ⟨nodeAbsX m, nodeAbsY m + nodeResHeight m 40 / 2, .left⟩) ∧
      (¬((nodeAbsX s + nodeResWidth s cfg.nodeWidth / 2) -
            (nodeAbsX m + nodeResWidth m 40 / 2) < -(nodeResWidth m 40 / 2)) →
        (nodeAbsX s + nodeResWidth s cfg.nodeWidth / 2) -
            (nodeAbsX m + nodeResWidth m 40 / 2) > nodeResWidth m 40 / 2 →
        getMergeTargetInfo s m cfg =
          ⟨nodeAbsX m + nodeResWidth m 40, nodeAbsY m + nodeResHeight m 40 / 2, .right⟩) ∧
      (¬((nodeAbsX s + nodeResWidth s cfg.nodeWidth / 2) -
            (nodeAbsX m + nodeResWidth m 40 / 2) < -(nodeResWidth m 40 / 2)) →
        ¬((nodeAbsX s + nodeResWidth s cfg.nodeWidth / 2) -
            (nodeAbsX m + nodeResWidth m 40 / 2) > nodeResWidth m 40 / 2) →
        getMergeTargetInfo s m cfg =
          ⟨nodeAbsX m + nodeResWidth m 40 / 2, nodeAbsY m, .top⟩) := by
  unfold getMergeTargetInfo
  dsimp only
  refine ⟨fun h1 => ?_, fun h1 h2 => ?_, fun h1 h2 => ?_⟩
  · rw [if_pos h1]
  · rw [if_neg h1, if_pos h2]
  · rw [if_neg h1, if_neg h2]

/-- C9 witness: spec scenario S4 — a source centred at `x = 300` entering the
40×40 merge at `(500,500)` from the left at `(500, 520)`. -/
theorem claim_C9_witness :
    ((nodeAbsX (⟨⟨250, 300⟩, none, some 100, some 40, none, none, none, none, none⟩ : RFNode) +
          nodeResWidth ⟨⟨250, 300⟩, none, some 100, some 40, none, none, none, none, none⟩
            DEFAULTS.nodeWidth / 2) -
        (nodeAbsX (⟨⟨500, 500⟩, none, some 40, some 40, none, none, none, none, none⟩ : RFNode) +
          nodeResWidth ⟨⟨500, 500⟩, none, some 40, some 40, none, none, none, none, none⟩ 40 / 2) <
        -(nodeResWidth (⟨⟨500, 500⟩, none, some 40, some 40, none, none, none, none, none⟩ : RFNode)
            40 / 2)) ∧
      getMergeTargetInfo ⟨⟨250, 300⟩, none, some 100, some 40, none, none, none, none, none⟩
          ⟨⟨500, 500⟩, none, some 40, some 40, none, none, none, none, none⟩ DEFAULTS =
        ⟨500, 520, .left⟩ := by
  constructor
  · with_unfolding_all decide
  · have h := (claim_C9 ⟨⟨250, 300⟩, none, some 100, some 40, none, none, none, none, none⟩
      ⟨⟨500, 500⟩, none, some 40, some 40, none, none, none, none, none⟩ DEFAULTS).1
      (by with_unfolding_all decide)
    rw [h]
    with_unfolding_all decide

/-- C10: when both stub directions are vertical, the stub `x`s differ by less
than 1 and the source stub end is at or below the target stub start,
`computeOrthogonalPath` immediately returns
`simplify(dedup([sourcePort, sourceStubEnd, targetStubStart, targetPort]))`,
and the obstacle list is never consulted. -/
theorem claim_C10 (sx sy tx ty : ℚ) (nodes nodes' : List NodeRect) (cfg : Config)
    (hsv : (resolveDir cfg.sourceDir .bottom).isVertical = true)
    (htv : (resolveDir cfg.targetDir .top).isVertical = true)
    (hx : |(routerStubSrc sx sy cfg.sourceDir cfg.sourceStubLength).x -
        (routerStubTgt tx ty cfg.targetDir cfg.targetStubLength).x| < 1)
    (hy : (routerStubSrc sx sy cfg.sourceDir cfg.sourceStubLength).y ≥
        (routerStubTgt tx ty cfg.targetDir cfg.targetStubLength).y) :
    computeOrthogonalPath sx sy tx ty nodes cfg =
        simplifyPath (dedup [⟨sx, sy⟩, routerStubSrc sx sy cfg.sourceDir cfg.sourceStubLength,
          routerStubTgt tx ty cfg.targetDir cfg.targetStubLength, ⟨tx, ty⟩]) ∧
      computeOrthogonalPath sx sy tx ty nodes cfg =
        computeOrthogonalPath sx sy tx ty nodes' cfg := by
  have ht : trivialCond sx sy tx ty cfg.sourceDir cfg.targetDir
      cfg.sourceStubLength cfg.targetStubLength = true := by
    unfold trivialCond
    dsimp only
    simp only [Bool.and_eq_true, decide_eq_true_eq]
    exact ⟨⟨⟨hsv, htv⟩, hx⟩, hy⟩
  unfold computeOrthogonalPath computeCore
  rw [if_pos ht]
  exact ⟨rfl, by rw [if_pos ht]⟩

/-- C10 witness: a vertical near-overlap input; the shortcut output and its
independence from a non-trivial obstacle list. -/
theorem claim_C10_witness :
    computeOrthogonalPath 0 0 0 (-100) [⟨0, -50, 10, 100, 50⟩] DEFAULTS =
        simplifyPath (dedup [⟨0, 0⟩, routerStubSrc 0 0 DEFAULTS.sourceDir
          DEFAULTS.sourceStubLength,
          routerStubTgt 0 (-100) DEFAULTS.targetDir DEFAULTS.targetStubLength, ⟨0, -100⟩]) ∧
      computeOrthogonalPath 0 0 0 (-100) [⟨0, -50, 10, 100, 50⟩] DEFAULTS =
        computeOrthogonalPath 0 0 0 (-100) [] DEFAULTS :=
  claim_C10 0 0 0 (-100) [⟨0, -50, 10, 100, 50⟩] [] DEFAULTS
    (by with_unfolding_all decide) (by with_unfolding_all decide)
    (by with_unfolding_all decide) (by with_unfolding_all decide)

/-- C7 counterexample: spec scenario S1 (a clear straight-down edge) already
returns only 2 points after collinear simplification, not ≥ 4. -/
theorem claim_C7_counterexample :
    (computeOrthogonalPath 50 40 50 200 [] DEFAULTS).length = 2 ∧
      ¬4 ≤ (computeOrthogonalPath 50 40 50 200 [] DEFAULTS).length := by
  constructor <;> with_unfolding_all decide

/-- C7 amended: the simplified result always keeps the source port first and
the target port last, so whenever the two ports differ the returned points
have length at least 2 (the claimed bound 4 fails — straight edges simplify
to 2 points). -/
theorem claim_C7 (sx sy tx ty : ℚ) (allNodes : List NodeRect) (cfg : Config)
    (h : (⟨sx, sy⟩ : Point) ≠ ⟨tx, ty⟩) :
    2 ≤ (computeOrthogonalPath sx sy tx ty allNodes cfg).length := by
  obtain ⟨hh, hl⟩ := computeCore_ends sx sy tx ty allNodes cfg.padding cfg.sourceDir
    cfg.targetDir cfg.sourceStubLength cfg.targetStubLength cfg.bendPenalty
  unfold computeOrthogonalPath
  refine length_ge_two_of_ends _ ⟨sx, sy⟩ hh ?_
  rw [hl]
  exact fun e => h e.symm

/-- C7 witness: scenario S1 has distinct ports and at least 2 points. -/
theorem claim_C7_witness :
    ((⟨50, 40⟩ : Point) ≠ ⟨50, 200⟩) ∧
      2 ≤ (computeOrthogonalPath 50 40 50 200 [] DEFAULTS).length :=
  ⟨by with_unfolding_all decide,
    claim_C7 50 40 50 200 [] DEFAULTS (by with_unfolding_all decide)⟩

/-- C5 counterexample: source stub vertical (`bottom`), target stub at the
same height so the single graph segment out of the start waypoint is
horizontal.  If the stub counted as the initial (vertical) axis, the segment
would cost `100 + bendPenalty = 101`; the code assigns `100`: `prevDir` of
the start is `null` and no bend penalty is ever charged on first segments. -/
theorem claim_C5_counterexample :
    routerDistEnd 0 0 100 40 [] 20 none none 20 20 1 = some 100 ∧
      (100 : ℚ) ≠ 100 + 1 := by
  constructor <;> with_unfolding_all decide

/-- C5 amended: the stub axis does not enter the cost at all — `prevDir` of
the start waypoint is initialised `null`, and expanding any waypoint whose
`prevDir` is `null` relaxes every outgoing segment without a bend penalty:
the expansion is independent of `bendPenalty`. -/
theorem claim_C5 (entries : List Entry) (idx : ℕ) (cost : ℚ) (st : DState) (bp₁ bp₂ : ℚ)
    (hv : st.visited.getD idx false = true)
    (hd : st.prevDir.getD idx none = none) :
    entries.foldl (relaxOne bp₁ idx cost) st = entries.foldl (relaxOne bp₂ idx cost) st := by
  induction entries generalizing st with
  | nil => rfl
  | cons e rest ih =>
      have hstep : relaxOne bp₁ idx cost st e = relaxOne bp₂ idx cost st e := by
        unfold relaxOne
        rw [hd]
      have hpres : ∀ bp, (relaxOne bp idx cost st e).visited.getD idx false = true ∧
          (relaxOne bp idx cost st e).prevDir.getD idx none = none := by
        intro bp
        unfold relaxOne
        by_cases hvn : st.visited.getD e.neighbor false = true
        · rw [if_pos hvn]
          exact ⟨hv, hd⟩
        · rw [if_neg hvn, hd]
          have hne : e.neighbor ≠ idx := by
            intro heq
            rw [heq, hv] at hvn
            exact hvn rfl
          dsimp only
          split
          · exact ⟨hv, by rw [getD_set_ne _ _ _ _ _ hne]; exact hd⟩
          · exact ⟨hv, hd⟩
      simp only [List.foldl_cons]
      rw [← hstep]
      exact ih _ ((hpres bp₁).1) ((hpres bp₁).2)

/-- C5 witness: a one-entry expansion from a start-like state (visited, no
incoming axis) gives the same state for bend penalties 1 and 7. -/
theorem claim_C5_witness :
    ((⟨[some 0, none], [none, none], [none, none], [true, false], []⟩ :
          DState).visited.getD 0 false = true) ∧
      ([⟨1, 5, .h⟩] : List Entry).foldl (relaxOne 1 0 0)
          ⟨[some 0, none], [none, none], [none, none], [true, false], []⟩ =
        ([⟨1, 5, .h⟩] : List Entry).foldl (relaxOne 7 0 0)
          ⟨[some 0, none], [none, none], [none, none], [true, false], []⟩ :=
  ⟨by with_unfolding_all decide,
    claim_C5 [⟨1, 5, .h⟩] 0 0 ⟨[some 0, none], [none, none], [none, none], [true, false], []⟩
      1 7 (by with_unfolding_all decide) (by with_unfolding_all decide)⟩

/-- C4 counterexample: in the acyclic graph `S→A, A→C, S→C`, nodes `A` and
`C` share the parent `S` (both are targets of edges out of `S`) yet get ranks
1 and 2: longest-path ranking does not equalise children that have other,
deeper incoming paths. -/
theorem claim_C4_counterexample :
    ((0, 1, (none : Option ℤ)) ∈
        ([(0, 1, none), (1, 2, none), (0, 2, none)] : List (ℕ × ℕ × Option ℤ))) ∧
      ((0, 2, (none : Option ℤ)) ∈
        ([(0, 1, none), (1, 2, none), (0, 2, none)] : List (ℕ × ℕ × Option ℤ))) ∧
      longestPathFromSource ⟨[0, 1, 2], [(0, 1, none), (1, 2, none), (0, 2, none)]⟩ 1 ≠
        longestPathFromSource ⟨[0, 1, 2], [(0, 1, none), (1, 2, none), (0, 2, none)]⟩ 2 := by
  refine ⟨?_, ?_, ?_⟩ <;> with_unfolding_all decide

theorem kahnExpand_ranks_ne (pr : ℤ) (st : KState) (cm : ℕ × ℤ) (c : ℕ) (h : cm.1 ≠ c) :
    (kahnExpand pr st cm).ranks c = st.ranks c := by
  unfold kahnExpand fupd
  dsimp only
  rw [if_neg (fun e => h e.symm)]

theorem foldExpand_ranks_ne (pr : ℤ) (c : ℕ) :
    ∀ (L : List (ℕ × ℤ)) (st : KState), (∀ cm ∈ L, cm.1 ≠ c) →
      (L.foldl (kahnExpand pr) st).ranks c = st.ranks c := by
  intro L
  induction L with
  | nil => intro st _; rfl
  | cons cm L ih =>
      intro st h
      rw [List.foldl_cons, ih _ (fun e he => h e (List.mem_cons_of_mem cm he)),
        kahnExpand_ranks_ne pr st cm c (h cm (List.mem_cons_self cm L))]

theorem kahnExpand_ranks_self (pr : ℤ) (st : KState) (c : ℕ) (mv : ℤ) :
    (kahnExpand pr st (c, mv)).ranks c = some (max ((st.ranks c).getD 0) (pr + mv)) := by
  unfold kahnExpand fupd
  dsimp only
  rw [if_pos rfl]

theorem foldExpand_ranks_single (pr : ℤ) (c : ℕ) (mv : ℤ) :
    ∀ (L : List (ℕ × ℤ)) (st : KState),
      L.filter (fun cm => cm.1 = c) = [(c, mv)] →
      (L.foldl (kahnExpand pr) st).ranks c = some (max ((st.ranks c).getD 0) (pr + mv)) := by
  intro L
  induction L with
  | nil => intro st h; cases h
  | cons cm L ih =>
      intro st h
      by_cases hc : cm.1 = c
      · rw [List.filter_cons_of_pos (by simpa using hc)] at h
        have hcm : cm = (c, mv) := (List.cons.injEq _ _ _ _ ▸ h).1
        have hrest : L.filter (fun cm => cm.1 = c) = [] :=
          (List.cons.injEq _ _ _ _ ▸ h).2
        subst hcm
        rw [List.foldl_cons,
          foldExpand_ranks_ne pr c L _ (by
            intro e he hec
            have : e ∈ L.filter (fun cm => cm.1 = c) := by
              rw [List.mem_filter]
              exact ⟨he, by simpa using hec⟩
            rw [hrest] at this
            cases this),
          kahnExpand_ranks_self]
      · rw [List.filter_cons_of_neg (by simpa using hc)] at h
        rw [List.foldl_cons, ih _ h, kahnExpand_ranks_ne pr st cm c hc]

theorem kahnLoop_ranks_eq (g : LGraph) (a b p : ℕ) (mv : ℤ)
    (hla : ∀ id, (ladj g id).filter (fun cm => cm.1 = a) =
      if id = p then [(a, mv)] else [])
    (hlb : ∀ id, (ladj g id).filter (fun cm => cm.1 = b) =
      if id = p then [(b, mv)] else []) :
    ∀ (fuel : ℕ) (st : KState), st.ranks a = st.ranks b →
      (kahnLoop g fuel st).ranks a = (kahnLoop g fuel st).ranks b := by
  intro fuel
  induction fuel with
  | zero => intro st h; exact h
  | succ fuel ih =>
      intro st h
      unfold kahnLoop
      rcases hq : st.queue with _ | ⟨id, rest⟩
      · exact h
      · by_cases hp : id = p
        · subst hp
          refine ih _ ?_
          rw [foldExpand_ranks_single _ a mv _ _ (by rw [hla id, if_pos rfl]),
            foldExpand_ranks_single _ b mv _ _ (by rw [hlb id, if_pos rfl])]
          dsimp only
          rw [h]
        · refine ih _ ?_
          have hea : ∀ cm ∈ ladj g id, cm.1 ≠ a := by
            intro cm hm he
            have : cm ∈ (ladj g id).filter (fun cm => cm.1 = a) := by
              rw [List.mem_filter]
              exact ⟨hm, by simpa using he⟩
            rw [hla id, if_neg hp] at this
            cases this
          have heb : ∀ cm ∈ ladj g id, cm.1 ≠ b := by
            intro cm hm he
            have : cm ∈ (ladj g id).filter (fun cm => cm.1 = b) := by
              rw [List.mem_filter]
              exact ⟨hm, by simpa using he⟩
            rw [hlb id, if_neg hp] at this
            cases this
          rw [foldExpand_ranks_ne _ a _ _ hea, foldExpand_ranks_ne _ b _ _ heb]
          exact h

theorem mapFilter_entries_nil (id a : ℕ) :
    ∀ es : List (ℕ × ℕ × Option ℤ), es.filter (fun e => e.2.1 = a) = [] →
      (((es.filter fun e => e.1 = id).map fun e => (e.2.1, resolveMinlen e.2.2)).filter
        (fun cm => cm.1 = a)) = [] := by
  intro es
  induction es with
  | nil => intro _; rfl
  | cons e es ih =>
      intro h
      by_cases ha : e.2.1 = a
      · rw [List.filter_cons_of_pos (by simpa using ha)] at h
        cases h
      · rw [List.filter_cons_of_neg (by simpa using ha)] at h
        by_cases hid : e.1 = id
        · rw [List.filter_cons_of_pos (by simpa using hid), List.map_cons,
            List.filter_cons_of_neg (by simpa using ha)]
          exact ih h
        · rw [List.filter_cons_of_neg (by simpa using hid)]
          exact ih h

theorem mapFilter_entries_single (id a p : ℕ) (ma : Option ℤ) :
    ∀ es : List (ℕ × ℕ × Option ℤ), es.filter (fun e => e.2.1 = a) = [(p, a, ma)] →
      (((es.filter fun e => e.1 = id).map fun e => (e.2.1, resolveMinlen e.2.2)).filter
        (fun cm => cm.1 = a)) = if id = p then [(a, resolveMinlen ma)] else [] := by
  intro es
  induction es with
  | nil => intro h; cases h
  | cons e es ih =>
      intro h
      by_cases ha : e.2.1 = a
      · rw [List.filter_cons_of_pos (by simpa using ha)] at h
        have he : e = (p, a, ma) := (List.cons.injEq _ _ _ _ ▸ h).1
        have hrest : es.filter (fun e => e.2.1 = a) = [] := (List.cons.injEq _ _ _ _ ▸ h).2
        subst he
        by_cases hid : (p, a, ma).1 = id
        · rw [List.filter_cons_of_pos (by simpa using hid), List.map_cons,
            List.filter_cons_of_pos (by simp), mapFilter_entries_nil id a es hrest,
            if_pos (by simpa using hid.symm)]
        · rw [List.filter_cons_of_neg (by simpa using hid),
            mapFilter_entries_nil id a es hrest,
            if_neg (by simpa using fun e => hid e.symm)]
      · rw [List.filter_cons_of_neg (by simpa using ha)] at h
        by_cases hid : e.1 = id
        · rw [List.filter_cons_of_pos (by simpa using hid), List.map_cons,
            List.filter_cons_of_neg (by simpa using ha)]
          exact ih h
        · rw [List.filter_cons_of_neg (by simpa using hid)]
          exact ih h

theorem ladj_filter_of_unique_inedge (g : LGraph) (a p : ℕ) (ma : Option ℤ)
    (hA : g.edges.filter (fun e => e.2.1 = a) = [(p, a, ma)]) :
    ∀ id, (ladj g id).filter (fun cm => cm.1 = a) =
      if id = p then [(a, resolveMinlen ma)] else [] := by
  intro id
  unfold ladj
  exact mapFilter_entries_single id a p ma g.edges hA

/-- C4 amended: two nodes that share a common parent get equal ranks provided
that parent's edges are their only incoming edges and carry the same resolved
`minlen` — with other incoming paths (or differing minlens) the longest-path
update can rank them apart, as the counterexample shows. -/
theorem claim_C4 (g : LGraph) (a b p : ℕ) (ma mb : Option ℤ)
    (hA : g.edges.filter (fun e => e.2.1 = a) = [(p, a, ma)])
    (hB : g.edges.filter (fun e => e.2.1 = b) = [(p, b, mb)])
    (hm : resolveMinlen ma = resolveMinlen mb) :
    longestPathFromSource g a = longestPathFromSource g b := by
  unfold longestPathFromSource
  apply kahnLoop_ranks_eq g a b p (resolveMinlen ma)
  · exact ladj_filter_of_unique_inedge g a p ma hA
  · rw [hm]
    exact ladj_filter_of_unique_inedge g b p mb hB
  · have hdega : linDeg0 g a = 1 := by
      unfold linDeg0
      rw [hA]
      rfl
    have hdegb : linDeg0 g b = 1 := by
      unfold linDeg0
      rw [hB]
      rfl
    have hia : a ∉ g.nodes.filter (fun n => linDeg0 g n = 0) := by
      intro hmem
      have h0 := (List.mem_filter.mp hmem).2
      rw [hdega] at h0
      simp at h0
    have hib : b ∉ g.nodes.filter (fun n => linDeg0 g n = 0) := by
      intro hmem
      have h0 := (List.mem_filter.mp hmem).2
      rw [hdegb] at h0
      simp at h0
    dsimp only
    rw [if_neg hia, if_neg hib]

/-- C4 witness: a clean branch — parent 0 with single-in-edge children 1 and
2 of equal minlen — gets equal child ranks. -/
theorem claim_C4_witness :
    (([(0, 1, some 1), (0, 2, some 1)] : List (ℕ × ℕ × Option ℤ)).filter
        (fun e => e.2.1 = 1) = [(0, 1, some 1)]) ∧
      (([(0, 1, some 1), (0, 2, some 1)] : List (ℕ × ℕ × Option ℤ)).filter
        (fun e => e.2.1 = 2) = [(0, 2, some 1)]) ∧
      longestPathFromSource ⟨[0, 1, 2], [(0, 1, some 1), (0, 2, some 1)]⟩ 1 =
        longestPathFromSource ⟨[0, 1, 2], [(0, 1, some 1), (0, 2, some 1)]⟩ 2 :=
  ⟨by with_unfolding_all decide, by with_unfolding_all decide,
    claim_C4 ⟨[0, 1, 2], [(0, 1, some 1), (0, 2, some 1)]⟩ 1 2 0 (some 1) (some 1)
      (by with_unfolding_all decide) (by with_unfolding_all decide) rfl⟩

theorem isInt_intCast (n : ℤ) : IsInt (n : ℚ) := ⟨n, rfl⟩

theorem isInt_add {a b : ℚ} (ha : IsInt a) (hb : IsInt b) : IsInt (a + b) := by
  obtain ⟨m, rfl⟩ := ha
  obtain ⟨n, rfl⟩ := hb
  exact ⟨m + n, by push_cast; ring⟩

theorem isInt_sub {a b : ℚ} (ha : IsInt a) (hb : IsInt b) : IsInt (a - b) := by
  obtain ⟨m, rfl⟩ := ha
  obtain ⟨n, rfl⟩ := hb
  exact ⟨m - n, by push_cast; ring⟩

/-- For integer-valued rationals the separator's `EPS`-tolerant inequality is
exact disequality. -/
theorem abs_gt_eps_iff_ne {a b : ℚ} (ha : IsInt a) (hb : IsInt b) :
    (|a - b| > EPS) ↔ a ≠ b := by
  obtain ⟨d, hd⟩ : IsInt (a - b) := isInt_sub ha hb
  rw [hd]
  constructor
  · intro h he
    rw [he, sub_self] at hd
    rw [← hd] at h
    norm_num [EPS] at h
  · intro h
    have hd0 : d ≠ 0 := by
      intro h0
      rw [h0] at hd
      push_cast at hd
      exact h (sub_eq_zero.mp hd)
    have h1 : (1 : ℚ) ≤ |(d : ℚ)| := by
      rw [← Int.cast_abs]
      exact_mod_cast Int.one_le_abs hd0
    unfold EPS
    linarith

theorem lookup_mem {κ ν : Type} [BEq κ] [LawfulBEq κ] :
    ∀ (l : List (κ × ν)) (k : κ) (v : ν), l.lookup k = some v → (k, v) ∈ l := by
  intro l
  induction l with
  | nil => intro k v h; cases h
  | cons kv t ih =>
      intro k v h
      obtain ⟨k1, v1⟩ := kv
      unfold List.lookup at h
      split at h
      · cases h
        have hk : k = k1 := by
          rename_i hbeq
          exact eq_of_beq hbeq
        subst hk
        exact List.mem_cons_self _ _
      · exact List.mem_cons_of_mem _ (ih k v h)

theorem getD_mem_or_eq {α : Type} :
    ∀ (l : List α) (j : ℕ) (d : α), l.getD j d ∈ l ∨ l.getD j d = d := by
  intro l
  induction l with
  | nil => intro j d; exact Or.inr rfl
  | cons a t ih =>
      intro j d
      cases j with
      | zero => exact Or.inl (List.mem_cons_self a t)
      | succ j =>
          rcases ih j d with h | h
          · exact Or.inl (List.mem_cons_of_mem a h)
          · exact Or.inr h

theorem getD_set_self {α : Type} :
    ∀ (l : List α) (n : ℕ) (v d : α), (l.set n v).getD n d = if n < l.length then v else d := by
  intro l
  induction l with
  | nil => intro n v d; cases n <;> simp [List.set]
  | cons a t ih =>
      intro n v d
      cases n with
      | zero => simp [List.set]
      | succ n =>
          show (t.set n v).getD n d = _
          rw [ih n v d]
          simp [Nat.succ_lt_succ_iff]

theorem point_eq_of {p q : Point} (hx : p.x = q.x) (hy : p.y = q.y) : p = q := by
  cases p; cases q; simp_all

theorem weakOrtho_symm {p q : Point} (h : WeakOrtho p q) : WeakOrtho q p := by
  rcases h with h | h
  · exact Or.inl h.symm
  · exact Or.inr h.symm

theorem orthoPair_of_weak_ne {p q : Point} (hw : WeakOrtho p q) (hne : p ≠ q) :
    OrthoPair p q := by
  rcases hw with h | h
  · exact Or.inl ⟨h, fun hy => hne (point_eq_of h hy)⟩
  · exact Or.inr ⟨fun hx => hne (point_eq_of hx h), h⟩

/-- With integer coordinates, failing the separator's diagonal test means the
pair agrees on a coordinate. -/
theorem weakOrtho_of_not_diag {p q : Point} (hp : IntPoint p) (hq : IntPoint q)
    (h : ¬(|p.x - q.x| > EPS ∧ |p.y - q.y| > EPS)) : WeakOrtho p q := by
  rcases not_and_or.mp h with h | h
  · exact Or.inl (not_not.mp ((abs_gt_eps_iff_ne hp.1 hq.1).not.mp h))
  · exact Or.inr (not_not.mp ((abs_gt_eps_iff_ne hp.2 hq.2).not.mp h))

theorem isInt_of_den_one {q : ℚ} (h : q.den = 1) : IsInt q :=
  ⟨q.num, ((Rat.den_eq_one_iff q).mp h).symm⟩

/-- Every offset produced by a cluster at even integer separation `2k` is an
integer. -/
theorem clusterOffsets_isInt (k : ℤ) (cl : List Seg) :
    ∀ kv ∈ clusterOffsets (2 * (k : ℚ)) cl, IsInt kv.2 := by
  intro kv hm
  unfold clusterOffsets at hm
  dsimp only at hm
  split at hm
  · cases hm
  · rw [List.mem_flatMap] at hm
    obtain ⟨i, _, hm⟩ := hm
    rw [List.mem_map] at hm
    obtain ⟨s, _, hs⟩ := hm
    have hv : kv.2 = ((i : ℚ) - (((edgeOrderOf cl).length : ℚ) - 1) / 2) * (2 * (k : ℚ)) := by
      rw [← hs]
    rw [hv]
    refine ⟨(2 * (i : ℤ) - ((edgeOrderOf cl).length : ℤ) + 1) * k, ?_⟩
    push_cast
    ring

/-- All offsets in the full offsets map are integers when the separation is
an even integer. -/
theorem offsetsOf_isInt (k : ℤ) (edgePaths : List (List Point)) :
    ∀ kv ∈ offsetsOf (2 * (k : ℚ)) edgePaths, IsInt kv.2 := by
  intro kv hm
  unfold offsetsOf at hm
  rw [List.mem_flatten] at hm
  obtain ⟨l, hl, hm⟩ := hm
  rw [List.mem_map] at hl
  obtain ⟨g, _, hg⟩ := hl
  rw [← hg] at hm
  unfold groupOffsets at hm
  split at hm
  · cases hm
  · split at hm
    · cases hm
    · rw [List.mem_flatten] at hm
      obtain ⟨l2, hl2, hm⟩ := hm
      rw [List.mem_map] at hl2
      obtain ⟨cl, _, hcl⟩ := hl2
      rw [← hcl] at hm
      exact clusterOffsets_isInt k cl kv hm

theorem foldl_preserve_mem {α σ : Type} (Inv : σ → Prop) (f : σ → α → σ) :
    ∀ (l : List α), (∀ s a, a ∈ l → Inv s → Inv (f s a)) →
      ∀ s, Inv s → Inv (l.foldl f s) := by
  intro l
  induction l with
  | nil => intro _ s hs; exact hs
  | cons a t ih =>
      intro hstep s hs
      exact ih (fun s' a' ha' hs' => hstep s' a' (List.mem_cons_of_mem a ha') hs') _
        (hstep s a (List.mem_cons_self a t) hs)

theorem mem_of_mem_enumFrom {α : Type} :
    ∀ (l : List α) (n : ℕ) (p : ℕ × α), p ∈ l.enumFrom n → p.2 ∈ l := by
  intro l
  induction l with
  | nil => intro n p h; cases h
  | cons a t ih =>
      intro n p h
      rw [List.enumFrom_cons, List.mem_cons] at h
      rcases h with h | h
      · rw [h]
        exact List.mem_cons_self a t
      · exact List.mem_cons_of_mem a (ih (n + 1) p h)

theorem mem_of_mem_enum {α : Type} (l : List α) (p : ℕ × α) (h : p ∈ l.enum) : p.2 ∈ l :=
  mem_of_mem_enumFrom l 0 p h

theorem intPoint_zero : IntPoint ⟨0, 0⟩ :=
  ⟨⟨0, by norm_num⟩, ⟨0, by norm_num⟩⟩

/-- One interior write of `applyOffsets` (index in `[2, len−3]`, integer
value) preserves length, the four junction points and integrality. -/
theorem set_step_inv (pts s : List Point) (w : ℕ) (v : Point)
    (hw2 : 2 ≤ w) (hw3 : w ≤ pts.length - 3) (hlen4 : 4 ≤ pts.length)
    (hIv : IntPoint v)
    (h1 : s.length = pts.length)
    (h2 : ∀ j, j < 2 ∨ pts.length - 2 ≤ j → s.getD j ⟨0, 0⟩ = pts.getD j ⟨0, 0⟩)
    (h3 : ∀ j, IntPoint (s.getD j ⟨0, 0⟩)) :
    (s.set w v).length = pts.length ∧
    (∀ j, j < 2 ∨ pts.length - 2 ≤ j → (s.set w v).getD j ⟨0, 0⟩ = pts.getD j ⟨0, 0⟩) ∧
    (∀ j, IntPoint ((s.set w v).getD j ⟨0, 0⟩)) := by
  refine ⟨by rw [List.length_set]; exact h1, ?_, ?_⟩
  · intro j hj
    have hne : w ≠ j := by omega
    rw [getD_set_ne s w j v _ hne]
    exact h2 j hj
  · intro j
    by_cases hj : j = w
    · subst hj
      rw [getD_set_self]
      split
      · exact hIv
      · exact intPoint_zero
    · rw [getD_set_ne s w j v _ (fun e => hj e.symm)]
      exact h3 j

/-- `applyOffsets` preserves length, never touches indices `0`, `1`,
`len−2`, `len−1`, and keeps integer coordinates when the offsets are
integers. -/
theorem applyOffsets_inv (offsets : List ((ℕ × ℕ) × ℚ)) (ei : ℕ) (pts : List Point)
    (hoff : ∀ kv ∈ offsets, IsInt kv.2)
    (hintD : ∀ j, IntPoint (pts.getD j ⟨0, 0⟩)) :
    (applyOffsets offsets ei pts).length = pts.length ∧
    (∀ j, j < 2 ∨ pts.length - 2 ≤ j →
      (applyOffsets offsets ei pts).getD j ⟨0, 0⟩ = pts.getD j ⟨0, 0⟩) ∧
    (∀ j, IntPoint ((applyOffsets offsets ei pts).getD j ⟨0, 0⟩)) := by
  unfold applyOffsets
  refine foldl_preserve_mem
    (fun s => s.length = pts.length ∧
      (∀ j, j < 2 ∨ pts.length - 2 ≤ j → s.getD j ⟨0, 0⟩ = pts.getD j ⟨0, 0⟩) ∧
      (∀ j, IntPoint (s.getD j ⟨0, 0⟩)))
    _ _ ?_ pts ⟨rfl, fun _ _ => rfl, hintD⟩
  intro s a ha hs
  rw [List.mem_range'_1] at ha
  have ha1 : 1 ≤ a := ha.1
  have ha3 : a ≤ pts.length - 3 := by omega
  have hlen4 : 4 ≤ pts.length := by omega
  dsimp only
  rcases hlk : offsets.lookup (ei, a) with _ | off
  · exact hs
  · have hoffInt : IsInt off := hoff ((ei, a), off) (lookup_mem offsets (ei, a) off hlk)
    dsimp only
    by_cases h0 : off = 0
    · rw [if_pos h0]; exact hs
    rw [if_neg h0]
    obtain ⟨hs1, hs2, hs3⟩ := hs
    by_cases hcy : |(pts.getD a ⟨0, 0⟩).y - (pts.getD (a + 1) ⟨0, 0⟩).y| < EPS
    · rw [if_pos hcy]
      by_cases h2a : 2 ≤ a
      · simp only [if_pos h2a]
        have hInv1 := set_step_inv pts s a ⟨(s.getD a ⟨0, 0⟩).x, (pts.getD a ⟨0, 0⟩).y + off⟩
          h2a ha3 hlen4 ⟨(hs3 a).1, isInt_add (hintD a).2 hoffInt⟩ hs1 hs2 hs3
        by_cases hc1 : a + 1 ≤ pts.length - 3
        · rw [if_pos hc1]
          exact set_step_inv pts _ (a + 1) _ (by omega) hc1 hlen4
            ⟨(hInv1.2.2 (a + 1)).1, isInt_add (hintD (a + 1)).2 hoffInt⟩
            hInv1.1 hInv1.2.1 hInv1.2.2
        · rw [if_neg hc1]; exact hInv1
      · simp only [if_neg h2a]
        by_cases hc1 : a + 1 ≤ pts.length - 3
        · rw [if_pos hc1]
          exact set_step_inv pts s (a + 1) _ (by omega) hc1 hlen4
            ⟨(hs3 (a + 1)).1, isInt_add (hintD (a + 1)).2 hoffInt⟩ hs1 hs2 hs3
        · rw [if_neg hc1]; exact ⟨hs1, hs2, hs3⟩
    · rw [if_neg hcy]
      by_cases hcx : |(pts.getD a ⟨0, 0⟩).x - (pts.getD (a + 1) ⟨0, 0⟩).x| < EPS
      · rw [if_pos hcx]
        by_cases h2a : 2 ≤ a
        · simp only [if_pos h2a]
          have hInv1 := set_step_inv pts s a ⟨(pts.getD a ⟨0, 0⟩).x + off, (s.getD a ⟨0, 0⟩).y⟩
            h2a ha3 hlen4 ⟨isInt_add (hintD a).1 hoffInt, (hs3 a).2⟩ hs1 hs2 hs3
          by_cases hc1 : a + 1 ≤ pts.length - 3
          · rw [if_pos hc1]
            exact set_step_inv pts _ (a + 1) _ (by omega) hc1 hlen4
              ⟨isInt_add (hintD (a + 1)).1 hoffInt, (hInv1.2.2 (a + 1)).2⟩
              hInv1.1 hInv1.2.1 hInv1.2.2
          · rw [if_neg hc1]; exact hInv1
        · simp only [if_neg h2a]
          by_cases hc1 : a + 1 ≤ pts.length - 3
          · rw [if_pos hc1]
            exact set_step_inv pts s (a + 1) _ (by omega) hc1 hlen4
              ⟨isInt_add (hintD (a + 1)).1 hoffInt, (hs3 (a + 1)).2⟩ hs1 hs2 hs3
          · rw [if_neg hc1]; exact ⟨hs1, hs2, hs3⟩
      · rw [if_neg hcx]; exact ⟨hs1, hs2, hs3⟩

/-- The re-orthogonalisation walk keeps the reversed result list weakly
orthogonal (given integer coordinates and vertical first/last stubs) and
grows it by at least one point per consumed index. -/
theorem walkFix_inv (adjusted : List Point)
    (hlen : 4 ≤ adjusted.length)
    (hintD : ∀ j, IntPoint (adjusted.getD j ⟨0, 0⟩))
    (h01 : (adjusted.getD 0 ⟨0, 0⟩).x = (adjusted.getD 1 ⟨0, 0⟩).x)
    (hlast : (adjusted.getD (adjusted.length - 2) ⟨0, 0⟩).x =
      (adjusted.getD (adjusted.length - 1) ⟨0, 0⟩).x) :
    ∀ (fuel i : ℕ) (rres : List Point),
      rres ≠ [] →
      (∀ p ∈ rres, IntPoint p) →
      List.Chain' WeakOrtho rres →
      (∀ p, rres = [p] → i = 1 ∧ p = adjusted.getD 0 ⟨0, 0⟩) →
      (∀ p q, rres = [p, q] → p.x = q.x) →
      List.Chain' WeakOrtho (walkFix adjusted (adjusted.length - 1) fuel i rres) ∧
      rres.length + min fuel (adjusted.length - i) ≤
        (walkFix adjusted (adjusted.length - 1) fuel i rres).length := by
  intro fuel
  induction fuel with
  | zero =>
      intro i rres hne _ hch _ _
      cases rres with
      | nil => exact absurd rfl hne
      | cons prev rtail =>
          rw [show walkFix adjusted (adjusted.length - 1) 0 i (prev :: rtail) =
            prev :: rtail from rfl]
          exact ⟨hch, by omega⟩
  | succ fuel ih =>
      intro i rres hne hip hch hI1 hI2
      cases rres with
      | nil => exact absurd rfl hne
      | cons prev rtail =>
        simp only [walkFix]
        by_cases hi : i < adjusted.length
        · rw [if_pos hi]
          by_cases hdiag : |prev.x - (adjusted.getD i ⟨0, 0⟩).x| > EPS ∧
              |prev.y - (adjusted.getD i ⟨0, 0⟩).y| > EPS
          · rw [if_pos hdiag]
            by_cases h2 : (prev :: rtail).length = 2
            · rw [if_pos h2]
              cases rtail with
              | nil => simp at h2
              | cons q0 rtail2 =>
                cases rtail2 with
                | cons r rtail3 => simp at h2
                | nil =>
                  have hx : prev.x = q0.x := hI2 prev q0 rfl
                  have hres := ih (i + 1)
                    (adjusted.getD i ⟨0, 0⟩ ::
                      (⟨prev.x, (adjusted.getD i ⟨0, 0⟩).y⟩ : Point) :: [q0])
                    (by simp)
                    (by
                      intro p hp
                      simp only [List.mem_cons] at hp
                      rcases hp with rfl | rfl | hp
                      · exact hintD i
                      · exact ⟨(hip prev (List.mem_cons_self _ _)).1, (hintD i).2⟩
                      · simp only [List.mem_singleton, List.not_mem_nil, or_false] at hp
                        exact hp ▸ hip q0 (by simp))
                    (List.chain'_cons.mpr ⟨Or.inr rfl,
                      List.chain'_cons.mpr ⟨Or.inl hx, List.chain'_singleton q0⟩⟩)
                    (by intro p hp; simp at hp)
                    (by intro p q hpq; simp at hpq)
                  refine ⟨hres.1, ?_⟩
                  have hlen2 := hres.2
                  simp only [List.length_cons, List.length_nil] at hlen2 ⊢
                  omega
            · rw [if_neg h2]
              by_cases hl : i = adjusted.length - 1 - 1
              · rw [if_pos hl]
                have hsx : (adjusted.getD (i + 1) ⟨0, 0⟩).x =
                    (adjusted.getD i ⟨0, 0⟩).x := by
                  have h1 : i = adjusted.length - 2 := by omega
                  have h2' : i + 1 = adjusted.length - 1 := by omega
                  rw [h2', h1]
                  exact hlast.symm
                have hres := ih (i + 2)
                  (adjusted.getD (i + 1) ⟨0, 0⟩ ::
                    (⟨(adjusted.getD i ⟨0, 0⟩).x, prev.y⟩ : Point) :: prev :: rtail)
                  (by simp)
                  (by
                    intro p hp
                    simp only [List.mem_cons] at hp
                    rcases hp with rfl | rfl | hp
                    · exact hintD (i + 1)
                    · exact ⟨(hintD i).1, (hip prev (List.mem_cons_self _ _)).2⟩
                    · exact hip p (by simp only [List.mem_cons]; exact hp))
                  (List.chain'_cons.mpr ⟨Or.inl hsx,
                    List.chain'_cons.mpr ⟨Or.inr rfl, hch⟩⟩)
                  (by intro p hp; simp at hp)
                  (by intro p q hpq; simp at hpq)
                refine ⟨hres.1, ?_⟩
                have hlen2 := hres.2
                simp only [List.length_cons] at hlen2 ⊢
                omega
              · rw [if_neg hl]
                have hres := ih (i + 1)
                  (adjusted.getD i ⟨0, 0⟩ ::
                    (⟨prev.x, (adjusted.getD i ⟨0, 0⟩).y⟩ : Point) :: prev :: rtail)
                  (by simp)
                  (by
                    intro p hp
                    simp only [List.mem_cons] at hp
                    rcases hp with rfl | rfl | hp
                    · exact hintD i
                    · exact ⟨(hip prev (List.mem_cons_self _ _)).1, (hintD i).2⟩
                    · exact hip p (by simp only [List.mem_cons]; exact hp))
                  (List.chain'_cons.mpr ⟨Or.inr rfl,
                    List.chain'_cons.mpr ⟨Or.inl rfl, hch⟩⟩)
                  (by intro p hp; simp at hp)
                  (by intro p q hpq; simp at hpq)
                refine ⟨hres.1, ?_⟩
                have hlen2 := hres.2
                simp only [List.length_cons] at hlen2 ⊢
                omega
          · rw [if_neg hdiag]
            have hweak : WeakOrtho prev (adjusted.getD i ⟨0, 0⟩) :=
              weakOrtho_of_not_diag (hip prev (List.mem_cons_self _ _)) (hintD i) hdiag
            have hres := ih (i + 1) (adjusted.getD i ⟨0, 0⟩ :: prev :: rtail)
              (by simp)
              (by
                intro p hp
                simp only [List.mem_cons] at hp
                rcases hp with rfl | hp
                · exact hintD i
                · exact hip p (by simp only [List.mem_cons]; exact hp))
              (List.chain'_cons.mpr ⟨weakOrtho_symm hweak, hch⟩)
              (by intro p hp; simp at hp)
              (by
                intro p q hpq
                cases rtail with
                | cons r rtail2 => simp at hpq
                | nil =>
                  obtain ⟨h1i, hprev0⟩ := hI1 prev rfl
                  simp only [List.cons.injEq, and_true] at hpq
                  obtain ⟨rfl, rfl⟩ := hpq
                  rw [hprev0, h1i]
                  exact h01.symm)
            refine ⟨hres.1, ?_⟩
            have hlen2 := hres.2
            simp only [List.length_cons] at hlen2 ⊢
            omega
        · rw [if_neg hi]
          refine ⟨hch, ?_⟩
          have : adjusted.length - i = 0 := by omega
          rw [this]
          omega

/-- Collinear-point removal preserves weak orthogonality of the chain. -/
theorem simplifyGo_weak :
    ∀ (rest : List Point) (prev : Point), List.Chain' WeakOrtho (prev :: rest) →
      List.Chain' WeakOrtho (prev :: simplifyGo prev rest) := by
  intro rest
  induction rest with
  | nil => intro prev _; exact List.chain'_singleton prev
  | cons cur tail ih =>
      intro prev hch
      cases tail with
      | nil => exact hch
      | cons next rest2 =>
          rw [show simplifyGo prev (cur :: next :: rest2) =
            if (prev.x = cur.x ∧ cur.x = next.x) ∨ (prev.y = cur.y ∧ cur.y = next.y) then
              simplifyGo prev (next :: rest2)
            else cur :: simplifyGo cur (next :: rest2) from rfl]
          obtain ⟨hpc, hcn, htl⟩ :
              WeakOrtho prev cur ∧ WeakOrtho cur next ∧ List.Chain' WeakOrtho (next :: rest2) := by
            rw [List.chain'_cons] at hch
            rw [List.chain'_cons] at hch
            exact ⟨hch.1, hch.2.1, hch.2.2⟩
          by_cases hc : (prev.x = cur.x ∧ cur.x = next.x) ∨ (prev.y = cur.y ∧ cur.y = next.y)
          · rw [if_pos hc]
            refine ih prev (List.chain'_cons.mpr ⟨?_, htl⟩)
            rcases hc with ⟨h1, h2⟩ | ⟨h1, h2⟩
            · exact Or.inl (h1.trans h2)
            · exact Or.inr (h1.trans h2)
          · rw [if_neg hc]
            exact List.chain'_cons.mpr ⟨hpc, ih cur (List.chain'_cons.mpr ⟨hcn, htl⟩)⟩

/-- Deduplication turns a weakly orthogonal chain into a strictly
orthogonal one. -/
theorem dedupGo_ortho :
    ∀ (rest : List Point) (prev : Point), List.Chain' WeakOrtho (prev :: rest) →
      Ortho (prev :: dedupGo prev rest) := by
  intro rest
  induction rest with
  | nil => intro prev _; exact List.chain'_singleton prev
  | cons p tail ih =>
      intro prev hch
      obtain ⟨hpp, htl⟩ : WeakOrtho prev p ∧ List.Chain' WeakOrtho (p :: tail) := by
        rw [List.chain'_cons] at hch
        exact hch
      rw [show dedupGo prev (p :: tail) =
        if p = prev then dedupGo prev tail else p :: dedupGo p tail from rfl]
      by_cases he : p = prev
      · rw [if_pos he]
        subst he
        exact ih p htl
      · rw [if_neg he]
        exact List.chain'_cons.mpr
          ⟨orthoPair_of_weak_ne hpp (fun e => he e.symm), ih p htl⟩

/-- `simplifyPath` of a weakly orthogonal polyline with at least three
points is strictly orthogonal. -/
theorem ortho_simplifyPath_of_weak (l : List Point) (h : List.Chain' WeakOrtho l)
    (hl : 3 ≤ l.length) : Ortho (simplifyPath l) := by
  match l, hl with
  | p0 :: r1 :: r2 :: rest, _ =>
      rw [show simplifyPath (p0 :: r1 :: r2 :: rest) =
        dedup (p0 :: simplifyGo p0 (r1 :: r2 :: rest)) from rfl]
      have hweak := simplifyGo_weak (r1 :: r2 :: rest) p0 h
      rw [show dedup (p0 :: simplifyGo p0 (r1 :: r2 :: rest)) =
        p0 :: dedupGo p0 (simplifyGo p0 (r1 :: r2 :: rest)) from rfl]
      exact dedupGo_ortho _ p0 hweak

/-- Weak orthogonality of a chain survives list reversal. -/
theorem weak_chain_reverse (l : List Point) (h : List.Chain' WeakOrtho l) :
    List.Chain' WeakOrtho l.reverse := by
  rw [List.chain'_reverse]
  exact List.Chain'.imp (fun a b hab => weakOrtho_symm hab) h

/-- One edge's pass through the separator preserves orthogonality, for an
orthogonal integer-coordinate polyline with vertical stub segments and
integer offsets. -/
theorem separateOne_ortho (offsets : List ((ℕ × ℕ) × ℚ)) (ei : ℕ) (pts : List Point)
    (hoff : ∀ kv ∈ offsets, IsInt kv.2)
    (hip : ∀ p ∈ pts, IntPoint p)
    (horth : Ortho pts)
    (hstub : 4 ≤ pts.length →
      (pts.getD 0 ⟨0, 0⟩).x = (pts.getD 1 ⟨0, 0⟩).x ∧
      (pts.getD (pts.length - 2) ⟨0, 0⟩).x = (pts.getD (pts.length - 1) ⟨0, 0⟩).x) :
    Ortho (separateOne offsets ei pts) := by
  unfold separateOne
  dsimp only
  by_cases hA : ((List.range' 1 (pts.length - 3)).any fun i =>
      (offsets.lookup (ei, i)).isSome) = true
  · rw [if_pos hA]
    have hlen4 : 4 ≤ pts.length := by
      rw [List.any_eq_true] at hA
      obtain ⟨i, hi, _⟩ := hA
      rw [List.mem_range'_1] at hi
      omega
    have hintD : ∀ j, IntPoint (pts.getD j ⟨0, 0⟩) := by
      intro j
      rcases getD_mem_or_eq pts j ⟨0, 0⟩ with h | h
      · exact hip _ h
      · rw [h]; exact intPoint_zero
    obtain ⟨hAl, hAu, hAi⟩ := applyOffsets_inv offsets ei pts hoff hintD
    obtain ⟨hs1, hs2⟩ := hstub hlen4
    rcases hadj : applyOffsets offsets ei pts with _ | ⟨a0, t⟩
    · rw [hadj] at hAl
      simp at hAl
      omega
    · rw [hadj] at hAl hAu hAi
      have hlen4' : 4 ≤ (a0 :: t).length := by omega
      have h01' : ((a0 :: t).getD 0 ⟨0, 0⟩).x = ((a0 :: t).getD 1 ⟨0, 0⟩).x := by
        rw [hAu 0 (Or.inl (by omega)), hAu 1 (Or.inl (by omega))]
        exact hs1
      have hlast' : ((a0 :: t).getD ((a0 :: t).length - 2) ⟨0, 0⟩).x =
          ((a0 :: t).getD ((a0 :: t).length - 1) ⟨0, 0⟩).x := by
        rw [hAl, hAu (pts.length - 2) (Or.inr (by omega)),
          hAu (pts.length - 1) (Or.inr (by omega))]
        exact hs2
      obtain ⟨hwchain, hwlen⟩ := walkFix_inv (a0 :: t) hlen4' hAi h01' hlast'
        (a0 :: t).length 1 [a0]
        (by simp)
        (by
          intro p hp
          simp only [List.mem_singleton] at hp
          rw [hp]
          exact hAi 0)
        (List.chain'_singleton a0)
        (by
          intro p hp
          simp only [List.cons.injEq, and_true] at hp
          exact ⟨rfl, hp.symm⟩)
        (by intro p q hpq; simp at hpq)
      refine ortho_simplifyPath_of_weak _ (weak_chain_reverse _ hwchain) ?_
      rw [List.length_reverse]
      simp only [List.length_singleton] at hwlen
      omega
  · rw [if_neg hA]
    exact horth

theorem getD_mem {α : Type} :
    ∀ (l : List α) (j : ℕ) (d : α), j < l.length → l.getD j d ∈ l := by
  intro l
  induction l with
  | nil => intro j d h; cases h
  | cons a t ih =>
      intro j d h
      cases j with
      | zero => exact List.mem_cons_self a t
      | succ j => exact List.mem_cons_of_mem a (ih j d (by simpa using h))

theorem getLastD_mem {α : Type} :
    ∀ (l : List α) (d : α), l ≠ [] → l.getLastD d ∈ l := by
  intro l
  induction l with
  | nil => intro d h; exact absurd rfl h
  | cons a t ih =>
      intro d _
      rw [List.getLastD_cons]
      cases t with
      | nil => exact List.mem_cons_self a []
      | cons b t2 => exact List.mem_cons_of_mem a (ih a (by simp))

theorem replicate_getD_nil {α : Type} :
    ∀ (n u : ℕ), (List.replicate n ([] : List α)).getD u [] = [] := by
  intro n
  induction n with
  | zero => intro u; cases u <;> rfl
  | succ n ih =>
      intro u
      cases u with
      | zero => rfl
      | succ u => exact ih u

theorem getD_append_self {α : Type} :
    ∀ (l : List α) (p d : α), (l ++ [p]).getD l.length d = p := by
  intro l
  induction l with
  | nil => intro p d; rfl
  | cons a t ih => intro p d; exact ih p d

/-- Swapping the endpoints does not change the segment-crossing test. -/
theorem segCross_symm (o : Axis) (f s e : ℚ) (obstacles : List Obstacle) :
    segmentCrossesAnyObstacle o f s e obstacles = segmentCrossesAnyObstacle o f e s obstacles := by
  unfold segmentCrossesAnyObstacle
  rw [min_comm, max_comm]

theorem bool_comm4 (a b c d : Bool) : (a && b && c && d) = (c && d && a && b) := by
  cases a <;> cases b <;> cases c <;> cases d <;> rfl

/-- A degenerate vertical segment crosses exactly when its point is strictly
inside some obstacle. -/
theorem segCross_point_v (x y : ℚ) (obstacles : List Obstacle) :
    segmentCrossesAnyObstacle .v x y y obstacles = pointStrictlyInsideAnyObstacle x y obstacles := by
  unfold segmentCrossesAnyObstacle pointStrictlyInsideAnyObstacle
  dsimp only
  congr 1
  funext o
  rw [min_self, max_self]

/-- A degenerate horizontal segment crosses exactly when its point is
strictly inside some obstacle. -/
theorem segCross_point_h (y x : ℚ) (obstacles : List Obstacle) :
    segmentCrossesAnyObstacle .h y x x obstacles = pointStrictlyInsideAnyObstacle x y obstacles := by
  unfold segmentCrossesAnyObstacle pointStrictlyInsideAnyObstacle
  dsimp only
  congr 1
  funext o
  rw [min_self, max_self]
  exact bool_comm4 _ _ _ _

/-- A point that is not strictly inside any obstacle forms a degenerate
avoiding pair with itself. -/
theorem pairAvoids_self (obstacles : List Obstacle) (p : Point)
    (h : pointStrictlyInsideAnyObstacle p.x p.y obstacles = false) :
    pairAvoids obstacles p p :=
  Or.inl ⟨rfl, by rw [segCross_point_v]; exact h⟩

/-- An avoiding pair sharing `x` has a crossing-free vertical segment. -/
theorem pairAvoids_vert {obstacles : List Obstacle} {p q : Point}
    (h : pairAvoids obstacles p q) (hx : p.x = q.x) :
    segmentCrossesAnyObstacle .v p.x p.y q.y obstacles = false := by
  rcases h with ⟨_, hc⟩ | ⟨hy, hc⟩
  · exact hc
  · have hq : q = p := (point_eq_of hx hy).symm
    subst hq
    rw [segCross_point_h] at hc
    rw [segCross_point_v]
    exact hc

/-- An avoiding pair sharing `y` has a crossing-free horizontal segment. -/
theorem pairAvoids_horiz {obstacles : List Obstacle} {p q : Point}
    (h : pairAvoids obstacles p q) (hy : p.y = q.y) :
    segmentCrossesAnyObstacle .h p.y p.x q.x obstacles = false := by
  rcases h with ⟨hx, hc⟩ | ⟨_, hc⟩
  · have hq : q = p := (point_eq_of hx hy).symm
    subst hq
    rw [segCross_point_v] at hc
    rw [segCross_point_h]
    exact hc
  · exact hc

/-- Two crossing-free collinear vertical segments sharing an endpoint merge
into a crossing-free segment (obstacles must have positive height). -/
theorem segCross_merge_v (obstacles : List Obstacle)
    (hnd : ∀ o ∈ obstacles, o.top < o.bottom) (x a b c : ℚ)
    (h1 : segmentCrossesAnyObstacle .v x a b obstacles = false)
    (h2 : segmentCrossesAnyObstacle .v x b c obstacles = false) :
    segmentCrossesAnyObstacle .v x a c obstacles = false := by
  unfold segmentCrossesAnyObstacle at h1 h2 ⊢
  dsimp only at h1 h2 ⊢
  rw [List.any_eq_false] at h1 h2 ⊢
  intro o ho
  have k1 := h1 o ho
  have k2 := h2 o ho
  have k3 := hnd o ho
  simp only [Bool.and_eq_true, decide_eq_true_eq, not_and] at k1 k2 ⊢
  intro h4 hm
  obtain ⟨⟨hxl, hxr⟩, hM⟩ := h4
  rcases le_total a c with hac | hac
  · rw [max_eq_right hac] at hM
    rw [min_eq_left hac] at hm
    by_cases hb : b > o.top
    · exact k1 ⟨⟨hxl, hxr⟩, lt_of_lt_of_le hb (le_max_right a b)⟩
        (lt_of_le_of_lt (min_le_left a b) hm)
    · exact k2 ⟨⟨hxl, hxr⟩, lt_of_lt_of_le hM (le_max_right b c)⟩
        (lt_of_le_of_lt (min_le_left b c) (by linarith))
  · rw [max_eq_left hac] at hM
    rw [min_eq_right hac] at hm
    by_cases hb : b > o.top
    · exact k2 ⟨⟨hxl, hxr⟩, lt_of_lt_of_le hb (le_max_left b c)⟩
        (lt_of_le_of_lt (min_le_right b c) hm)
    · exact k1 ⟨⟨hxl, hxr⟩, lt_of_lt_of_le hM (le_max_left a b)⟩
        (lt_of_le_of_lt (min_le_right a b) (by linarith))

/-- Horizontal version of the merge lemma (obstacles must have positive
width). -/
theorem segCross_merge_h (obstacles : List Obstacle)
    (hnd : ∀ o ∈ obstacles, o.left < o.right) (y a b c : ℚ)
    (h1 : segmentCrossesAnyObstacle .h y a b obstacles = false)
    (h2 : segmentCrossesAnyObstacle .h y b c obstacles = false) :
    segmentCrossesAnyObstacle .h y a c obstacles = false := by
  unfold segmentCrossesAnyObstacle at h1 h2 ⊢
  dsimp only at h1 h2 ⊢
  rw [List.any_eq_false] at h1 h2 ⊢
  intro o ho
  have k1 := h1 o ho
  have k2 := h2 o ho
  have k3 := hnd o ho
  simp only [Bool.and_eq_true, decide_eq_true_eq, not_and] at k1 k2 ⊢
  intro h4 hm
  obtain ⟨⟨hyt, hyb⟩, hM⟩ := h4
  rcases le_total a c with hac | hac
  · rw [max_eq_right hac] at hM
    rw [min_eq_left hac] at hm
    by_cases hb : b > o.left
    · exact k1 ⟨⟨hyt, hyb⟩, lt_of_lt_of_le hb (le_max_right a b)⟩
        (lt_of_le_of_lt (min_le_left a b) hm)
    · exact k2 ⟨⟨hyt, hyb⟩, lt_of_lt_of_le hM (le_max_right b c)⟩
        (lt_of_le_of_lt (min_le_left b c) (by linarith))
  · rw [max_eq_left hac] at hM
    rw [min_eq_right hac] at hm
    by_cases hb : b > o.left
    · exact k2 ⟨⟨hyt, hyb⟩, lt_of_lt_of_le hb (le_max_left b c)⟩
        (lt_of_le_of_lt (min_le_right b c) hm)
    · exact k1 ⟨⟨hyt, hyb⟩, lt_of_lt_of_le hM (le_max_left a b)⟩
        (lt_of_le_of_lt (min_le_right a b) (by linarith))

/-- Dropping a collinear middle point preserves obstacle avoidance. -/
theorem pairAvoids_merge {obstacles : List Obstacle}
    (hnd : ∀ o ∈ obstacles, o.top < o.bottom ∧ o.left < o.right)
    {p cur next : Point} (h1 : pairAvoids obstacles p cur)
    (h2 : pairAvoids obstacles cur next)
    (hc : (p.x = cur.x ∧ cur.x = next.x) ∨ (p.y = cur.y ∧ cur.y = next.y)) :
    pairAvoids obstacles p next := by
  rcases hc with ⟨ha, hb⟩ | ⟨ha, hb⟩
  · refine Or.inl ⟨ha.trans hb, ?_⟩
    have hv2 := pairAvoids_vert h2 hb
    rw [← ha] at hv2
    exact segCross_merge_v obstacles (fun o ho => (hnd o ho).1) p.x p.y cur.y next.y
      (pairAvoids_vert h1 ha) hv2
  · refine Or.inr ⟨ha.trans hb, ?_⟩
    have hh2 := pairAvoids_horiz h2 hb
    rw [← ha] at hh2
    exact segCross_merge_h obstacles (fun o ho => (hnd o ho).2) p.y p.x cur.x next.x
      (pairAvoids_horiz h1 ha) hh2

/-- `dedupGo` preserves any chain relation (kept pairs are original pairs). -/
theorem dedupGo_chain (R : Point → Point → Prop) :
    ∀ (rest : List Point) (prev : Point), List.Chain' R (prev :: rest) →
      List.Chain' R (prev :: dedupGo prev rest) := by
  intro rest
  induction rest with
  | nil => intro prev _; exact List.chain'_singleton prev
  | cons p tail ih =>
      intro prev hch
      obtain ⟨hpp, htl⟩ : R prev p ∧ List.Chain' R (p :: tail) := by
        rw [List.chain'_cons] at hch
        exact hch
      rw [show dedupGo prev (p :: tail) =
        if p = prev then dedupGo prev tail else p :: dedupGo p tail from rfl]
      by_cases he : p = prev
      · rw [if_pos he]
        subst he
        exact ih p htl
      · rw [if_neg he]
        exact List.chain'_cons.mpr ⟨hpp, ih p htl⟩

/-- `dedup` preserves any chain relation. -/
theorem dedup_chain (R : Point → Point → Prop) (l : List Point) (h : List.Chain' R l) :
    List.Chain' R (dedup l) := by
  cases l with
  | nil => exact List.chain'_nil
  | cons p rest => exact dedupGo_chain R rest p h

/-- Collinear-middle-point removal preserves obstacle avoidance (for
nondegenerate obstacles). -/
theorem simplifyGo_avoid (obstacles : List Obstacle)
    (hnd : ∀ o ∈ obstacles, o.top < o.bottom ∧ o.left < o.right) :
    ∀ (rest : List Point) (prev : Point),
      List.Chain' (pairAvoids obstacles) (prev :: rest) →
      List.Chain' (pairAvoids obstacles) (prev :: simplifyGo prev rest) := by
  intro rest
  induction rest with
  | nil => intro prev _; exact List.chain'_singleton prev
  | cons cur tail ih =>
      intro prev hch
      cases tail with
      | nil => exact hch
      | cons next rest2 =>
          rw [show simplifyGo prev (cur :: next :: rest2) =
            if (prev.x = cur.x ∧ cur.x = next.x) ∨ (prev.y = cur.y ∧ cur.y = next.y) then
              simplifyGo prev (next :: rest2)
            else cur :: simplifyGo cur (next :: rest2) from rfl]
          obtain ⟨hpc, hcn, htl⟩ : pairAvoids obstacles prev cur ∧
              pairAvoids obstacles cur next ∧
              List.Chain' (pairAvoids obstacles) (next :: rest2) := by
            rw [List.chain'_cons] at hch
            rw [List.chain'_cons] at hch
            exact ⟨hch.1, hch.2.1, hch.2.2⟩
          by_cases hc : (prev.x = cur.x ∧ cur.x = next.x) ∨ (prev.y = cur.y ∧ cur.y = next.y)
          · rw [if_pos hc]
            exact ih prev (List.chain'_cons.mpr ⟨pairAvoids_merge hnd hpc hcn hc, htl⟩)
          · rw [if_neg hc]
            exact List.chain'_cons.mpr ⟨hpc, ih cur (List.chain'_cons.mpr ⟨hcn, htl⟩)⟩

/-- `simplifyPath` preserves obstacle avoidance (for nondegenerate
obstacles). -/
theorem simplifyPath_avoid (obstacles : List Obstacle)
    (hnd : ∀ o ∈ obstacles, o.top < o.bottom ∧ o.left < o.right)
    (l : List Point) (h : pathAvoids obstacles l) : pathAvoids obstacles (simplifyPath l) := by
  match l with
  | [] => exact h
  | [a] => exact h
  | [a, b] => exact h
  | p0 :: r1 :: r2 :: rest =>
      rw [show simplifyPath (p0 :: r1 :: r2 :: rest) =
        dedup (p0 :: simplifyGo p0 (r1 :: r2 :: rest)) from rfl]
      exact dedup_chain _ _ (simplifyGo_avoid obstacles hnd (r1 :: r2 :: rest) p0 h)

theorem getD_append_left {α : Type} :
    ∀ (l l' : List α) (j : ℕ) (d : α), j < l.length → (l ++ l').getD j d = l.getD j d := by
  intro l
  induction l with
  | nil => intro l' j d h; cases h
  | cons a t ih =>
      intro l' j d h
      cases j with
      | zero => rfl
      | succ j => exact ih l' j d (by simpa using h)

theorem lookupIdx_some_spec (p : Point) :
    ∀ (l : List Point) (i j : ℕ), lookupIdx p l i = some j →
      i ≤ j ∧ j - i < l.length ∧ l.getD (j - i) ⟨0, 0⟩ = p := by
  intro l
  induction l with
  | nil => intro i j h; cases h
  | cons q rest ih =>
      intro i j h
      rw [show lookupIdx p (q :: rest) i =
        if q = p then some i else lookupIdx p rest (i + 1) from rfl] at h
      by_cases he : q = p
      · rw [if_pos he] at h
        injection h with h'
        subst h'
        exact ⟨le_refl i, by simp, by rw [Nat.sub_self]; exact he⟩
      · rw [if_neg he] at h
        obtain ⟨h1, h2, h3⟩ := ih (i + 1) j h
        refine ⟨by omega, by simp only [List.length_cons]; omega, ?_⟩
        have hj : j - i = (j - (i + 1)) + 1 := by omega
        rw [hj]
        exact h3

/-- When `addWaypoint` reports an index, that index points at the requested
point in the returned list. -/
theorem addWaypointIdx_snd_spec (obstacles : List Obstacle) (wps : List Point) (x y : ℚ)
    (i : ℕ) (h : (addWaypointIdx obstacles wps x y).2 = some i) :
    i < (addWaypointIdx obstacles wps x y).1.length ∧
      (addWaypointIdx obstacles wps x y).1.getD i ⟨0, 0⟩ = ⟨x, y⟩ := by
  unfold addWaypointIdx at h ⊢
  rcases hL : lookupIdx ⟨x, y⟩ wps 0 with _ | j
  · rw [hL] at h
    dsimp only at h ⊢
    by_cases h2 : pointStrictlyInsideAnyObstacle x y obstacles = true
    · rw [if_pos h2] at h
      cases h
    · rw [if_neg h2] at h ⊢
      dsimp only at h ⊢
      injection h with h'
      subst h'
      exact ⟨by simp, getD_append_self wps ⟨x, y⟩ ⟨0, 0⟩⟩
  · rw [hL] at h
    dsimp only at h ⊢
    injection h with h'
    subst h'
    obtain ⟨_, h2, h3⟩ := lookupIdx_some_spec ⟨x, y⟩ wps 0 j hL
    rw [Nat.sub_zero] at h2 h3
    exact ⟨h2, h3⟩

theorem addWaypointIdx_fst_cases (obstacles : List Obstacle) (wps : List Point) (x y : ℚ) :
    (addWaypointIdx obstacles wps x y).1 = wps ∨
      (addWaypointIdx obstacles wps x y).1 = wps ++ [⟨x, y⟩] := by
  unfold addWaypointIdx
  rcases hL : lookupIdx ⟨x, y⟩ wps 0 with _ | j
  · dsimp only
    by_cases h2 : pointStrictlyInsideAnyObstacle x y obstacles = true
    · rw [if_pos h2]
      exact Or.inl rfl
    · rw [if_neg h2]
      exact Or.inr rfl
  · exact Or.inl rfl

/-- No waypoint of the router grid is strictly inside an obstacle. -/
theorem routerWps_not_inside (sx sy tx ty : ℚ) (allNodes : List NodeRect)
    (padding : ℚ) (srcDirO tgtDirO : Option Dir) (sLen tLen : ℚ) :
    ∀ p ∈ routerWps sx sy tx ty allNodes padding srcDirO tgtDirO sLen tLen,
      pointStrictlyInsideAnyObstacle p.x p.y (routerObstacles allNodes padding) = false := by
  unfold routerWps
  dsimp only
  exact addWaypointIdx_fst_not_inside _ _ _ _
    (addWaypointIdx_fst_not_inside _ _ _ _ (buildWaypoints_not_inside _ _ _))

/-- A reported `startIdx` points at the source stub end in the final
waypoint list. -/
theorem routerStartIdx_spec (sx sy tx ty : ℚ) (allNodes : List NodeRect)
    (padding : ℚ) (srcDirO tgtDirO : Option Dir) (sLen tLen : ℚ) (s : ℕ)
    (h : routerStartIdx sx sy tx ty allNodes padding srcDirO tgtDirO sLen tLen = some s) :
    s < (routerWps sx sy tx ty allNodes padding srcDirO tgtDirO sLen tLen).length ∧
      (routerWps sx sy tx ty allNodes padding srcDirO tgtDirO sLen tLen).getD s ⟨0, 0⟩ =
        routerStubSrc sx sy srcDirO sLen := by
  unfold routerStartIdx at h
  unfold routerWps
  dsimp only at h ⊢
  obtain ⟨h1, h2⟩ := addWaypointIdx_snd_spec _ _ _ _ s h
  rcases addWaypointIdx_fst_cases (routerObstacles allNodes padding)
      ((addWaypointIdx (routerObstacles allNodes padding)
        (buildWaypoints (routerObstacles allNodes padding)
          (routerXs sx sy tx ty allNodes padding srcDirO tgtDirO sLen tLen)
          (routerYs sx sy tx ty allNodes padding srcDirO tgtDirO sLen tLen))
        (routerStubSrc sx sy srcDirO sLen).x (routerStubSrc sx sy srcDirO sLen).y).1)
      (routerStubTgt tx ty tgtDirO tLen).x (routerStubTgt tx ty tgtDirO tLen).y with hc | hc
  · rw [hc]
    exact ⟨h1, h2⟩
  · rw [hc]
    constructor
    · rw [List.length_append]
      omega
    · rw [getD_append_left _ _ _ _ h1]
      exact h2

/-- A reported `endIdx` points at the target stub start in the final
waypoint list. -/
theorem routerEndIdx_spec (sx sy tx ty : ℚ) (allNodes : List NodeRect)
    (padding : ℚ) (srcDirO tgtDirO : Option Dir) (sLen tLen : ℚ) (e : ℕ)
    (h : routerEndIdx sx sy tx ty allNodes padding srcDirO tgtDirO sLen tLen = some e) :
    e < (routerWps sx sy tx ty allNodes padding srcDirO tgtDirO sLen tLen).length ∧
      (routerWps sx sy tx ty allNodes padding srcDirO tgtDirO sLen tLen).getD e ⟨0, 0⟩ =
        routerStubTgt tx ty tgtDirO tLen := by
  unfold routerEndIdx at h
  unfold routerWps
  dsimp only at h ⊢
  exact addWaypointIdx_snd_spec _ _ _ _ e h

theorem mem_enumFrom_spec {α : Type} :
    ∀ (l : List α) (n : ℕ) (pr : ℕ × α) (d : α), pr ∈ l.enumFrom n →
      n ≤ pr.1 ∧ pr.1 - n < l.length ∧ l.getD (pr.1 - n) d = pr.2 := by
  intro l
  induction l with
  | nil => intro n pr d h; cases h
  | cons a t ih =>
      intro n pr d h
      rw [List.enumFrom_cons, List.mem_cons] at h
      rcases h with h | h
      · rw [h]
        exact ⟨le_refl n, by simp, by rw [Nat.sub_self]; rfl⟩
      · obtain ⟨h1, h2, h3⟩ := ih (n + 1) pr d h
        refine ⟨by omega, by simp only [List.length_cons]; omega, ?_⟩
        have he : pr.1 - n = (pr.1 - (n + 1)) + 1 := by omega
        rw [he]
        exact h3

theorem mem_enum_spec {α : Type} (l : List α) (pr : ℕ × α) (d : α) (h : pr ∈ l.enum) :
    pr.1 < l.length ∧ l.getD pr.1 d = pr.2 := by
  obtain ⟨_, h2, h3⟩ := mem_enumFrom_spec l 0 pr d h
  rw [Nat.sub_zero] at h2 h3
  exact ⟨h2, h3⟩

theorem mem_columnAt (iwps : List (ℕ × Point)) (x : ℚ) (pr : ℕ × Point)
    (h : pr ∈ columnAt iwps x) : pr ∈ iwps ∧ pr.2.x = x := by
  unfold columnAt at h
  rw [(List.perm_insertionSort _ _).mem_iff, List.mem_filter] at h
  exact ⟨h.1, by simpa using h.2⟩

theorem mem_rowAt (iwps : List (ℕ × Point)) (y : ℚ) (pr : ℕ × Point)
    (h : pr ∈ rowAt iwps y) : pr ∈ iwps ∧ pr.2.y = y := by
  unfold rowAt at h
  rw [(List.perm_insertionSort _ _).mem_iff, List.mem_filter] at h
  exact ⟨h.1, by simpa using h.2⟩

theorem mem_consecPairs {α : Type} (l : List α) (pr : α × α) (h : pr ∈ consecPairs l) :
    pr.1 ∈ l ∧ pr.2 ∈ l := by
  unfold consecPairs at h
  obtain ⟨h1, h2⟩ := List.of_mem_zip h
  exact ⟨h1, List.mem_of_mem_tail h2⟩

theorem mem_adjPush (A : List (List Entry)) (i : ℕ) (e : Entry) (u : ℕ) (en : Entry)
    (h : en ∈ (adjPush A i e).getD u []) : en ∈ A.getD u [] ∨ (u = i ∧ en = e) := by
  unfold adjPush at h
  by_cases hui : u = i
  · subst hui
    rw [getD_set_self] at h
    split at h
    · rcases List.mem_append.mp h with h | h
      · exact Or.inl h
      · exact Or.inr ⟨rfl, by simpa using h⟩
    · cases h
  · rw [getD_set_ne _ _ _ _ _ (fun e' => hui e'.symm)] at h
    exact Or.inl h

theorem addVerticalPair_sound (obstacles : List Obstacle) (wps : List Point) (x : ℚ)
    (A : List (List Entry)) (ab : (ℕ × Point) × (ℕ × Point))
    (ha : ab.1 ∈ wps.enum ∧ ab.1.2.x = x) (hb : ab.2 ∈ wps.enum ∧ ab.2.2.x = x)
    (hA : AdjSound obstacles wps A) :
    AdjSound obstacles wps (addVerticalPair obstacles x A ab) := by
  unfold addVerticalPair
  dsimp only
  by_cases hcr : segmentCrossesAnyObstacle .v x ab.1.2.y ab.2.2.y obstacles = true
  · rw [if_pos hcr]
    exact hA
  · rw [if_neg hcr]
    have hcf : segmentCrossesAnyObstacle .v x ab.1.2.y ab.2.2.y obstacles = false :=
      Bool.eq_false_iff.mpr hcr
    obtain ⟨ha1, ha2⟩ := mem_enum_spec wps ab.1 ⟨0, 0⟩ ha.1
    obtain ⟨hb1, hb2⟩ := mem_enum_spec wps ab.2 ⟨0, 0⟩ hb.1
    intro u en hen
    rcases mem_adjPush _ _ _ _ _ hen with hen | ⟨rfl, rfl⟩
    · rcases mem_adjPush _ _ _ _ _ hen with hen | ⟨rfl, rfl⟩
      · exact hA u en hen
      · refine ⟨hb1, Or.inl ⟨?_, ?_⟩⟩
        · rw [ha2, hb2]
          exact ha.2.trans hb.2.symm
        · rw [ha2, hb2, ha.2]
          exact hcf
    · refine ⟨ha1, Or.inl ⟨?_, ?_⟩⟩
      · rw [hb2, ha2]
        exact hb.2.trans ha.2.symm
      · rw [hb2, ha2, hb.2]
        rw [segCross_symm]
        exact hcf

theorem addHorizontalPair_sound (obstacles : List Obstacle) (wps : List Point) (y : ℚ)
    (A : List (List Entry)) (ab : (ℕ × Point) × (ℕ × Point))
    (ha : ab.1 ∈ wps.enum ∧ ab.1.2.y = y) (hb : ab.2 ∈ wps.enum ∧ ab.2.2.y = y)
    (hA : AdjSound obstacles wps A) :
    AdjSound obstacles wps (addHorizontalPair obstacles y A ab) := by
  unfold addHorizontalPair
  dsimp only
  by_cases hcr : segmentCrossesAnyObstacle .h y ab.1.2.x ab.2.2.x obstacles = true
  · rw [if_pos hcr]
    exact hA
  · rw [if_neg hcr]
    have hcf : segmentCrossesAnyObstacle .h y ab.1.2.x ab.2.2.x obstacles = false :=
      Bool.eq_false_iff.mpr hcr
    obtain ⟨ha1, ha2⟩ := mem_enum_spec wps ab.1 ⟨0, 0⟩ ha.1
    obtain ⟨hb1, hb2⟩ := mem_enum_spec wps ab.2 ⟨0, 0⟩ hb.1
    intro u en hen
    rcases mem_adjPush _ _ _ _ _ hen with hen | ⟨rfl, rfl⟩
    · rcases mem_adjPush _ _ _ _ _ hen with hen | ⟨rfl, rfl⟩
      · exact hA u en hen
      · refine ⟨hb1, Or.inr ⟨?_, ?_⟩⟩
        · rw [ha2, hb2]
          exact ha.2.trans hb.2.symm
        · rw [ha2, hb2, ha.2]
          exact hcf
    · refine ⟨ha1, Or.inr ⟨?_, ?_⟩⟩
      · rw [hb2, ha2]
        exact hb.2.trans ha.2.symm
      · rw [hb2, ha2, hb.2]
        rw [segCross_symm]
        exact hcf

/-- Every adjacency entry produced by `buildAdjacency` is in range and its
segment avoids all obstacles. -/
theorem buildAdjacency_sound (obstacles : List Obstacle) (wps : List Point) :
    AdjSound obstacles wps (buildAdjacency obstacles wps) := by
  unfold buildAdjacency
  dsimp only
  refine foldl_preserve (AdjSound obstacles wps) _ ?_ _ _ ?_
  · intro A y hA
    refine foldl_preserve_mem (AdjSound obstacles wps) _ _ ?_ A hA
    intro A' ab hab hA'
    have hm := mem_consecPairs _ _ hab
    have h1 := mem_rowAt _ _ _ hm.1
    have h2 := mem_rowAt _ _ _ hm.2
    exact addHorizontalPair_sound obstacles wps y A' ab h1 h2 hA'
  · refine foldl_preserve (AdjSound obstacles wps) _ ?_ _ _ ?_
    · intro A x hA
      refine foldl_preserve_mem (AdjSound obstacles wps) _ _ ?_ A hA
      intro A' ab hab hA'
      have hm := mem_consecPairs _ _ hab
      have h1 := mem_columnAt _ _ _ hm.1
      have h2 := mem_columnAt _ _ _ hm.2
      exact addVerticalPair_sound obstacles wps x A' ab h1 h2 hA'
    · intro u en hen
      rw [replicate_getD_nil] at hen
      cases hen

theorem mem_hswap (data : List HeapItem) (i j : ℕ) (x : HeapItem)
    (h : x ∈ hswap data i j) : x ∈ data := by
  unfold hswap at h
  split at h
  · rename_i a b hi hj
    unfold hset at h
    rcases List.mem_or_eq_of_mem_set h with h | rfl
    · rcases List.mem_or_eq_of_mem_set h with h | rfl
      · exact h
      · exact List.get?_mem hj
    · exact List.get?_mem hi
  · exact h

theorem mem_bubbleUp (x : HeapItem) :
    ∀ (fuel : ℕ) (data : List HeapItem) (i : ℕ), x ∈ bubbleUp fuel data i → x ∈ data := by
  intro fuel
  induction fuel with
  | zero => intro data i h; exact h
  | succ fuel ih =>
      intro data i h
      simp only [bubbleUp] at h
      split at h
      · exact h
      · split at h
        · split at h
          · exact mem_hswap _ _ _ _ (ih _ _ h)
          · exact h
        · exact h

theorem mem_sinkDown (x : HeapItem) :
    ∀ (fuel : ℕ) (data : List HeapItem) (i : ℕ), x ∈ sinkDown fuel data i → x ∈ data := by
  intro fuel
  induction fuel with
  | zero => intro data i h; exact h
  | succ fuel ih =>
      intro data i h
      simp only [sinkDown] at h
      split at h <;>
        (try split at h) <;>
        (try split at h) <;>
        first
          | exact h
          | exact mem_hswap _ _ _ _ (ih _ _ h)

theorem mem_heapPush (data : List HeapItem) (item x : HeapItem)
    (h : x ∈ heapPush data item) : x ∈ data ∨ x = item := by
  unfold heapPush at h
  rcases List.mem_append.mp (mem_bubbleUp x _ _ _ h) with h | h
  · exact Or.inl h
  · exact Or.inr (by simpa using h)

theorem heapPop_sub (data : List HeapItem) (o : Option HeapItem) (rest' : List HeapItem)
    (h : heapPop data = (o, rest')) : ∀ x ∈ rest', x ∈ data := by
  unfold heapPop at h
  cases data with
  | nil =>
      injection h with h1 h2
      subst h2
      intro x hx
      cases hx
  | cons top t =>
      dsimp only at h
      split at h
      · injection h with h1 h2
        subst h2
        intro x hx
        have hx2 := mem_sinkDown x _ _ _ hx
        unfold hset at hx2
        rcases List.mem_or_eq_of_mem_set hx2 with hx3 | rfl
        · exact (List.dropLast_sublist _).subset hx3
        · exact getLastD_mem _ _ (by simp)
      · injection h with h1 h2
        subst h2
        intro x hx
        exact (List.dropLast_sublist _).subset hx

theorem heapPop_fst_mem (data : List HeapItem) (item : HeapItem) (rest' : List HeapItem)
    (h : heapPop data = (some item, rest')) : item ∈ data := by
  unfold heapPop at h
  cases data with
  | nil =>
      injection h with h1 h2
      cases h1
  | cons top t =>
      dsimp only at h
      split at h
      · injection h with h1 h2
        injection h1 with h1
        rw [← h1]
        exact List.mem_cons_self _ _
      · injection h with h1 h2
        injection h1 with h1
        rw [← h1]
        exact List.mem_cons_self _ _

theorem replicate_getD {α : Type} (a : α) :
    ∀ (n v : ℕ), (List.replicate n a).getD v a = a := by
  intro n
  induction n with
  | zero => intro v; cases v <;> rfl
  | succ n ih =>
      intro v
      cases v with
      | zero => rfl
      | succ v => exact ih v

theorem getD_set_some_stable {α : Type} (l : List (Option α)) (m v : ℕ) (c : α)
    (h : l.getD v none ≠ none) : (l.set m (some c)).getD v none ≠ none := by
  by_cases hvm : v = m
  · subst hvm
    rw [getD_set_self]
    split
    · simp
    · rename_i hlen
      exact absurd (List.getD_eq_default _ _ (by omega)) h
  · rw [getD_set_ne _ _ _ _ _ (fun e => hvm e.symm)]
    exact h

theorem concat_decomp {α : Type} {w : α} {vl pre suf : List α} (hn : w ∉ vl)
    (h : vl ++ [w] = pre ++ w :: suf) : pre = vl ∧ suf = [] := by
  induction vl generalizing pre with
  | nil =>
      cases pre with
      | nil =>
          simp only [List.nil_append] at h
          injection h with _ h2
          exact ⟨rfl, h2.symm⟩
      | cons b pre' =>
          simp only [List.nil_append, List.cons_append] at h
          injection h with _ h2
          have := congrArg List.length h2
          simp only [List.length_nil, List.length_append, List.length_cons] at this
          omega
  | cons a vl' ih =>
      cases pre with
      | nil =>
          simp only [List.cons_append, List.nil_append] at h
          injection h with h1 _
          exact absurd (h1 ▸ List.mem_cons_self a vl') hn
      | cons b pre' =>
          simp only [List.cons_append] at h
          injection h with h1 h2
          obtain ⟨hp, hs⟩ := ih (fun hm => hn (List.mem_cons_of_mem a hm)) h2
          exact ⟨by rw [hp, ← h1], hs⟩

theorem concat_decomp_ne {α : Type} {w v : α} {vl pre suf : List α} (hvw : v ≠ w)
    (h : vl ++ [w] = pre ++ v :: suf) :
    ∃ suf', suf = suf' ++ [w] ∧ vl = pre ++ v :: suf' := by
  rcases List.eq_nil_or_concat suf with hnil | ⟨suf', a, hcat⟩
  · subst hnil
    have h1 : (vl ++ [w]).getLast? = some w := List.getLast?_concat vl
    rw [h] at h1
    have h2 : (pre ++ [v]).getLast? = some v := List.getLast?_concat pre
    rw [show pre ++ v :: ([] : List α) = pre ++ [v] from rfl] at h1
    rw [h1] at h2
    injection h2 with h3
    exact absurd h3 (fun e => hvw e.symm)
  · rw [List.concat_eq_append] at hcat
    subst hcat
    have h2 : vl ++ [w] = (pre ++ v :: suf') ++ [a] := by
      rw [h]
      simp [List.append_assoc]
    obtain ⟨h3, h4⟩ := List.append_inj' h2 rfl
    injection h4 with h5
    exact ⟨suf', by rw [h5], h3⟩

/-- The initial Dijkstra state satisfies the loop invariant with empty visit
order. -/
theorem initDState_inv (n s : ℕ) (adj : List (List Entry)) (hs : s < n) :
    DInvVl n s adj (initDState n s) [] := by
  unfold DInvVl initDState
  dsimp only
  refine ⟨?_, ?_, ?_, List.nodup_nil, ?_, ?_, ?_, ?_, ?_⟩
  · rw [List.length_set, List.length_replicate]
  · rw [List.length_replicate]
  · rw [List.length_replicate]
  · intro v
    constructor
    · intro hv
      rw [replicate_getD] at hv
      cases hv
    · intro hv
      cases hv
  · intro v hv
    cases hv
  · intro v u hpu
    rw [replicate_getD] at hpu
    cases hpu
  · intro v _ _
    by_cases hvs : v = s
    · exact Or.inl hvs
    · refine Or.inr ?_
      rw [getD_set_ne _ _ _ _ _ (fun e => hvs e.symm), replicate_getD]
  · intro item hitem
    simp only [List.mem_singleton] at hitem
    subst hitem
    refine ⟨hs, ?_⟩
    dsimp only
    rw [getD_set_self, if_pos (by rw [List.length_replicate]; exact hs)]
    simp

/-- One relaxation step never erases a finite distance. -/
theorem relaxOne_dist_stable (bp : ℚ) (idx : ℕ) (cost : ℚ) (st : DState) (en : Entry)
    (w : ℕ) (h : st.dist.getD w none ≠ none) :
    (relaxOne bp idx cost st en).dist.getD w none ≠ none := by
  unfold relaxOne
  split
  · exact h
  · dsimp only
    split
    · dsimp only
      exact getD_set_some_stable _ _ _ _ h
    · exact h

/-- One relaxation step preserves the loop invariant, for an entry of the
just-visited node `idx`. -/
theorem relaxOne_pres (n s : ℕ) (adj : List (List Entry)) (bp : ℚ) (idx : ℕ) (cost : ℚ)
    (vl : List ℕ) (st : DState) (en : Entry)
    (hen : en ∈ adj.getD idx [])
    (hnb : en.neighbor < n)
    (hidxvl : idx ∈ vl)
    (hdistidx : st.dist.getD idx none ≠ none)
    (h : DInvVl n s adj st vl) :
    DInvVl n s adj (relaxOne bp idx cost st en) vl := by
  obtain ⟨hd, hp, hv, hN, hvis, hvln, hprev, hnone, hheap⟩ := h
  unfold relaxOne
  by_cases hvg : st.visited.getD en.neighbor false = true
  · rw [if_pos hvg]
    exact ⟨hd, hp, hv, hN, hvis, hvln, hprev, hnone, hheap⟩
  · rw [if_neg hvg]
    dsimp only
    split
    · refine ⟨?_, ?_, hv, hN, hvis, hvln, ?_, ?_, ?_⟩
      · dsimp only
        rw [List.length_set]
        exact hd
      · dsimp only
        rw [List.length_set]
        exact hp
      · intro v u hpu
        dsimp only at hpu ⊢
        by_cases hvnb : v = en.neighbor
        · subst hvnb
          rw [getD_set_self] at hpu
          split at hpu
          · injection hpu with hui
            subst hui
            refine ⟨hidxvl, ?_, hnb, hvln idx hidxvl, ?_, en, hen, rfl⟩
            · intro pre suf hdec
              have hmem : en.neighbor ∈ vl := by
                rw [hdec]
                exact List.mem_append_right pre (List.mem_cons_self _ _)
              exact absurd ((hvis en.neighbor).mpr hmem) hvg
            · refine getD_set_some_stable _ _ _ _ ?_
              -- dist[idx] ≠ none: idx visited ⇒ some heap... use hprev? no.
              exact hdistidx
          · cases hpu
        · rw [getD_set_ne _ _ _ _ _ (fun e => hvnb e.symm)] at hpu
          obtain ⟨c1, c2, c3, c4, c5, c6⟩ := hprev v u hpu
          exact ⟨c1, c2, c3, c4, getD_set_some_stable _ _ _ _ c5, c6⟩
      · intro v hvn hpn
        dsimp only at hpn
        by_cases hvnb : v = en.neighbor
        · subst hvnb
          rw [getD_set_self] at hpn
          split at hpn
          · cases hpn
          · rename_i hlen
            rw [hp] at hlen
            omega
        · rw [getD_set_ne _ _ _ _ _ (fun e => hvnb e.symm)] at hpn
          rcases hnone v hvn hpn with hc | hc
          · exact Or.inl hc
          · refine Or.inr ?_
            dsimp only
            rw [getD_set_ne _ _ _ _ _ (fun e => hvnb e.symm)]
            exact hc
      · intro item hitem
        dsimp only at hitem ⊢
        rcases mem_heapPush _ _ _ hitem with hold | hnew
        · obtain ⟨o1, o2⟩ := hheap item hold
          exact ⟨o1, getD_set_some_stable _ _ _ _ o2⟩
        · subst hnew
          refine ⟨hnb, ?_⟩
          rw [getD_set_self, if_pos (by rw [hd]; exact hnb)]
          simp
    · exact ⟨hd, hp, hv, hN, hvis, hvln, hprev, hnone, hheap⟩

/-- The fuelled Dijkstra loop preserves the invariant. -/
theorem dijkstraLoop_inv (n s : ℕ) (adj : List (List Entry)) (bp : ℚ) (endIdx : ℕ)
    (hadjn : ∀ u, ∀ en ∈ adj.getD u [], en.neighbor < n) :
    ∀ (fuel : ℕ) (st : DState), DInv n s adj st →
      DInv n s adj (dijkstraLoop adj bp endIdx fuel st) := by
  intro fuel
  induction fuel with
  | zero => intro st h; exact h
  | succ fuel ih =>
      intro st h
      simp only [dijkstraLoop]
      rcases hpop : heapPop st.heap with ⟨_ | item, heap'⟩
      · exact h
      · dsimp only
        obtain ⟨vl, hd, hp, hv, hN, hvis, hvln, hprev, hnone, hheap⟩ := h
        have hsub := heapPop_sub st.heap _ _ hpop
        have hitem := heapPop_fst_mem st.heap item _ hpop
        obtain ⟨hin, hidist⟩ := hheap item hitem
        by_cases hvg : st.visited.getD item.idx false = true
        · rw [if_pos hvg]
          exact ih _ ⟨vl, hd, hp, hv, hN, hvis, hvln, hprev, hnone,
            fun it hit => hheap it (hsub it hit)⟩
        · rw [if_neg hvg]
          have hnotin : item.idx ∉ vl := fun hm => hvg ((hvis _).mpr hm)
          have hN' : (vl ++ [item.idx]).Nodup := by
            rw [List.nodup_append]
            refine ⟨hN, List.nodup_singleton _, ?_⟩
            intro a ha hb
            simp only [List.mem_singleton] at hb
            subst hb
            exact hnotin ha
          have hvis' : ∀ v, (st.visited.set item.idx true).getD v false = true ↔
              v ∈ vl ++ [item.idx] := by
            intro v
            by_cases hvi : v = item.idx
            · subst hvi
              rw [getD_set_self, if_pos (by rw [hv]; exact hin)]
              simp
            · rw [getD_set_ne _ _ _ _ _ (fun e => hvi e.symm), hvis v]
              simp only [List.mem_append, List.mem_singleton]
              exact ⟨fun hm => Or.inl hm, fun hm => hm.elim id (fun e => absurd e hvi)⟩
          have hvln' : ∀ v ∈ vl ++ [item.idx], v < n := by
            intro v hm
            rcases List.mem_append.mp hm with hm | hm
            · exact hvln v hm
            · simp only [List.mem_singleton] at hm
              rw [hm]
              exact hin
          have hprev' : ∀ v u, st.prev.getD v none = some u →
              u ∈ vl ++ [item.idx] ∧
              (∀ pre suf, vl ++ [item.idx] = pre ++ v :: suf → u ∈ pre) ∧ v < n ∧ u < n ∧
              st.dist.getD u none ≠ none ∧
              ∃ en ∈ adj.getD u [], en.neighbor = v := by
            intro v u hpu
            obtain ⟨c1, c2, c3, c4, c5, c6⟩ := hprev v u hpu
            refine ⟨List.mem_append_left _ c1, ?_, c3, c4, c5, c6⟩
            intro pre suf hdec
            by_cases hvi : v = item.idx
            · subst hvi
              obtain ⟨hpre, _⟩ := concat_decomp hnotin hdec
              rw [hpre]
              exact c1
            · obtain ⟨suf', _, hvl2⟩ := concat_decomp_ne hvi hdec
              exact c2 pre suf' hvl2
          have hbase : DInvVl n s adj
              { st with heap := heap', visited := st.visited.set item.idx true }
              (vl ++ [item.idx]) := by
            refine ⟨hd, hp, by dsimp only; rw [List.length_set]; exact hv, hN',
              hvis', hvln', hprev', hnone, ?_⟩
            intro it hit
            exact hheap it (hsub it hit)
          by_cases hend : item.idx = endIdx
          · rw [if_pos hend]
            exact ⟨vl ++ [item.idx], hbase⟩
          · rw [if_neg hend]
            apply ih
            refine ⟨vl ++ [item.idx], ?_⟩
            have hfold := foldl_preserve_mem
              (fun st' => DInvVl n s adj st' (vl ++ [item.idx]) ∧
                st'.dist.getD item.idx none ≠ none)
              (relaxOne bp item.idx item.cost) (adj.getD item.idx []) ?_ _ ⟨hbase, hidist⟩
            · exact hfold.1
            · intro st' en hen hst'
              exact ⟨relaxOne_pres n s adj bp item.idx item.cost _ st' en hen
                  (hadjn item.idx en hen)
                  (List.mem_append_right vl (List.mem_cons_self _ _)) hst'.2 hst'.1,
                relaxOne_dist_stable bp item.idx item.cost st' en item.idx hst'.2⟩

/-- The predecessor walk: with predecessors descending a ghost visit order,
enough fuel yields the full chain from `cur` down to a `prev`-free node. -/
theorem walkPrev_spec (prev : List (Option ℕ)) (vl : List ℕ)
    (hc : ∀ v u, prev.getD v none = some u → u ∈ vl ∧
      ∀ pre suf, vl = pre ++ v :: suf → u ∈ pre) :
    ∀ (fuel cur : ℕ),
      (cur ∈ vl → ∃ pre suf, vl = pre ++ cur :: suf ∧ pre.length < fuel) →
      (cur ∉ vl → vl.length < fuel) →
      (walkPrev prev fuel cur).head? = some cur ∧
      List.Chain' (fun a b => prev.getD a none = some b) (walkPrev prev fuel cur) ∧
      prev.getD ((walkPrev prev fuel cur).getLastD cur) none = none ∧
      (∀ x ∈ walkPrev prev fuel cur, x = cur ∨ ∃ w, prev.getD w none = some x) := by
  intro fuel
  induction fuel with
  | zero =>
      intro cur h1 h2
      by_cases hcv : cur ∈ vl
      · obtain ⟨pre, suf, _, hlen⟩ := h1 hcv
        omega
      · have := h2 hcv
        omega
  | succ fuel ih =>
      intro cur h1 h2
      rcases hp : prev.getD cur none with _ | p
      · simp only [walkPrev]
        rw [hp]
        refine ⟨rfl, List.chain'_singleton cur, ?_, ?_⟩
        · rw [List.getLastD_cons]
          exact hp
        · intro x hx
          simp only [List.mem_singleton] at hx
          exact Or.inl hx
      · have hcp := hc cur p hp
        have hpvl : p ∈ vl := hcp.1
        have hdp : ∃ pre2 suf2, vl = pre2 ++ p :: suf2 ∧ pre2.length < fuel := by
          by_cases hcv : cur ∈ vl
          · obtain ⟨pre, suf, hvl, hlen⟩ := h1 hcv
            have hup : p ∈ pre := hcp.2 pre suf hvl
            obtain ⟨pa, pb, hpre⟩ := List.append_of_mem hup
            refine ⟨pa, pb ++ cur :: suf, ?_, ?_⟩
            · rw [hvl, hpre]
              simp [List.append_assoc]
            · have hple : pre.length = pa.length + pb.length + 1 := by
                rw [hpre]
                simp only [List.length_append, List.length_cons]
                omega
              omega
          · have hlv := h2 hcv
            obtain ⟨pa, pb, hpre⟩ := List.append_of_mem hpvl
            refine ⟨pa, pb, hpre, ?_⟩
            have hple : vl.length = pa.length + pb.length + 1 := by
              rw [hpre]
              simp only [List.length_append, List.length_cons]
              omega
            omega
        obtain ⟨ihh, ihc, ihl, ihe⟩ := ih p (fun _ => hdp) (fun hnp => absurd hpvl hnp)
        simp only [walkPrev]
        rw [hp]
        dsimp only
        rcases hW : walkPrev prev fuel p with _ | ⟨q, tail⟩
        · rw [hW] at ihh
          cases ihh
        · rw [hW] at ihh ihc ihl ihe
          have hq : q = p := by injection ihh
          subst hq
          refine ⟨rfl, List.chain'_cons.mpr ⟨hp, ihc⟩, ?_, ?_⟩
          · rw [List.getLastD_cons]
            rw [List.getLastD_cons] at ihl ⊢
            exact ihl
          · intro x hx
            rcases List.mem_cons.mp hx with rfl | hx
            · exact Or.inl rfl
            · rcases ihe x hx with rfl | he
              · exact Or.inr ⟨cur, hp⟩
              · exact Or.inr he

theorem nodup_bounded_length (vl : List ℕ) (n : ℕ) (hN : vl.Nodup)
    (hb : ∀ v ∈ vl, v < n) : vl.length ≤ n := by
  have h1 : vl.toFinset.card = vl.length := List.toFinset_card_of_nodup hN
  have h2 : vl.toFinset ⊆ Finset.range n := by
    intro v hv
    rw [List.mem_toFinset] at hv
    rw [Finset.mem_range]
    exact hb v hv
  have h3 := Finset.card_le_card h2
  rw [h1, Finset.card_range] at h3
  exact h3

theorem getLast?_eq_getLastD {α : Type} :
    ∀ (l : List α) (d : α), l ≠ [] → l.getLast? = some (l.getLastD d) := by
  intro l
  induction l with
  | nil => intro d h; exact absurd rfl h
  | cons a t ih =>
      intro d _
      rw [List.getLastD_cons]
      cases t with
      | nil => rfl
      | cons b t2 =>
          rw [List.getLast?_cons_cons]
          exact ih a (by simp)

theorem getLast?_map_f {α β : Type} (f : α → β) :
    ∀ (l : List α), (l.map f).getLast? = l.getLast?.map f := by
  intro l
  induction l with
  | nil => rfl
  | cons a t ih =>
      cases t with
      | nil => rfl
      | cons b t2 =>
          simp only [List.map_cons] at ih ⊢
          rw [List.getLast?_cons_cons, List.getLast?_cons_cons]
          exact ih

/-- Inflated obstacles of nondegenerate nodes are nondegenerate. -/
theorem routerObstacles_nd (allNodes : List NodeRect) (padding : ℚ)
    (hnd : ∀ nr ∈ allNodes, 0 < nr.width + 2 * padding ∧ 0 < nr.height + 2 * padding) :
    ∀ o ∈ routerObstacles allNodes padding, o.top < o.bottom ∧ o.left < o.right := by
  intro o ho
  unfold routerObstacles inflateObstacles at ho
  rw [List.mem_map] at ho
  obtain ⟨nr, hnr, heq⟩ := ho
  obtain ⟨h1, h2⟩ := hnd nr hnr
  rw [← heq]
  dsimp only
  constructor <;> linarith

/-- The full reconstructed grid path (ports, stubs and the waypoint chain
from the predecessor walk) is an obstacle-avoiding chain. -/
theorem gridPath_chain (obstacles : List Obstacle) (wps : List Point)
    (adj : List (List Entry)) (st : DState) (s e : ℕ) (port pSrc pTgt tport : Point)
    (hAdjS : AdjSound obstacles wps adj)
    (hInv : DInv wps.length s adj st)
    (he : e < wps.length) (hsD : wps.getD s ⟨0, 0⟩ = pSrc)
    (heD : wps.getD e ⟨0, 0⟩ = pTgt)
    (hDc : st.dist.getD e none ≠ none)
    (hsrc : pairAvoids obstacles port pSrc)
    (htgt : pairAvoids obstacles pTgt tport)
    (hsNI : pointStrictlyInsideAnyObstacle pSrc.x pSrc.y obstacles = false)
    (htNI : pointStrictlyInsideAnyObstacle pTgt.x pTgt.y obstacles = false) :
    List.Chain' (pairAvoids obstacles)
      (port :: pSrc ::
        ((walkPrev st.prev (wps.length + 1) e).reverse.map fun i => wps.getD i ⟨0, 0⟩) ++
        [pTgt, tport]) := by
  obtain ⟨vl, hd, hp, hv, hN, hvis, hvln, hprev, hnone, hheap⟩ := hInv
  have hvb := nodup_bounded_length vl wps.length hN hvln
  obtain ⟨hWh, hWc, hWl, hWe⟩ := walkPrev_spec st.prev vl
    (fun v u h => ⟨(hprev v u h).1, (hprev v u h).2.1⟩) (wps.length + 1) e
    (by
      intro hev
      obtain ⟨pa, pb, hpre⟩ := List.append_of_mem hev
      refine ⟨pa, pb, hpre, ?_⟩
      have hlen := congrArg List.length hpre
      simp only [List.length_append, List.length_cons] at hlen
      omega)
    (fun _ => by omega)
  set W := walkPrev st.prev (wps.length + 1) e with hWdef
  have hWne : W ≠ [] := fun h0 => by rw [h0] at hWh; cases hWh
  have hvend : W.getLastD e = s := by
    rcases hWe _ (getLastD_mem W e hWne) with hve | ⟨w, hw⟩
    · rcases hnone (W.getLastD e) (by rw [hve]; exact he) hWl with h | h
      · exact h
      · rw [hve] at h
        exact absurd h hDc
    · obtain ⟨_, _, _, c4, c5, _⟩ := hprev w _ hw
      rcases hnone _ c4 hWl with h | h
      · exact h
      · exact absurd h c5
  have hrev : List.Chain' (fun a b => st.prev.getD b none = some a) W.reverse := by
    rw [List.chain'_reverse]
    exact hWc
  have hMchain : List.Chain' (pairAvoids obstacles)
      (W.reverse.map fun i => wps.getD i ⟨0, 0⟩) := by
    rw [List.chain'_map]
    refine List.Chain'.imp ?_ hrev
    intro a b hab
    obtain ⟨_, _, _, _, _, en, hen, hnb⟩ := hprev b a hab
    have h2 := (hAdjS a en hen).2
    rw [hnb] at h2
    exact h2
  have hPIhead : W.reverse.head? = some (W.getLastD e) := by
    rw [List.head?_reverse]
    exact getLast?_eq_getLastD W e hWne
  have hPIlast : W.reverse.getLast? = some e := by
    rw [List.getLast?_reverse]
    exact hWh
  rw [List.cons_append, List.cons_append, List.chain'_cons]
  refine ⟨hsrc, ?_⟩
  rw [List.chain'_cons']
  constructor
  · intro b hb
    obtain ⟨ve, pRest, hPIeq⟩ : ∃ ve pRest, W.reverse = ve :: pRest := by
      cases h0 : W.reverse with
      | nil => rw [h0] at hPIhead; cases hPIhead
      | cons a t => exact ⟨a, t, rfl⟩
    rw [hPIeq] at hPIhead
    have hveq : ve = W.getLastD e := by
      injection hPIhead
    rw [hPIeq] at hb
    simp only [List.map_cons, List.cons_append, List.head?_cons, Option.mem_def,
      Option.some.injEq] at hb
    rw [← hb, hveq, hvend, hsD]
    exact pairAvoids_self obstacles pSrc hsNI
  · rw [List.chain'_append]
    refine ⟨hMchain, ?_, ?_⟩
    · rw [List.chain'_cons]
      exact ⟨htgt, List.chain'_singleton _⟩
    · intro x hx y hy
      rw [getLast?_map_f, hPIlast] at hx
      simp only [Option.map_some', Option.mem_def, Option.some.injEq] at hx
      simp only [List.head?_cons, Option.mem_def, Option.some.injEq] at hy
      rw [← hx, ← hy, heD]
      exact pairAvoids_self obstacles pTgt htNI

/-- C3 counterexample: two orthogonal input polylines sharing the `y = 50`
corridor; the first edge ends in a horizontal (merge-style `left`-entry)
target stub.  The end-fix of the separator re-aligns the stub start in `y`
but its neighbour keeps the old `y`, leaving the diagonal segment
`(80, 47.5) → (100, 50)` in the output. -/
theorem claim_C3_counterexample :
    Ortho [⟨0, 0⟩, ⟨0, 20⟩, ⟨40, 20⟩, ⟨40, 50⟩, ⟨80, 50⟩, ⟨100, 50⟩] ∧
      Ortho [⟨300, 0⟩, ⟨300, 20⟩, ⟨300, 50⟩, ⟨60, 50⟩, ⟨60, 100⟩, ⟨60, 120⟩] ∧
      ¬Ortho ((separateOverlappingEdges
          [[⟨0, 0⟩, ⟨0, 20⟩, ⟨40, 20⟩, ⟨40, 50⟩, ⟨80, 50⟩, ⟨100, 50⟩],
            [⟨300, 0⟩, ⟨300, 20⟩, ⟨300, 50⟩, ⟨60, 50⟩, ⟨60, 100⟩, ⟨60, 120⟩]] 5 8).getD 0 []) := by
  refine ⟨?_, ?_, ?_⟩ <;> with_unfolding_all decide

/-- C3 (amended): the unconditional claim fails (see the counterexample),
but it holds on the inputs the router actually produces: for a batch of
orthogonal polylines with integer coordinates whose first and last segments
are vertical (the first two and last two points each share `x`, as produced
by top/bottom stubs) and an even integer separation, every polyline returned
by `separateOverlappingEdges` is orthogonal — every pair of consecutive
points differs on exactly one coordinate. -/
theorem claim_C3 (edgePaths : List (List Point)) (k : ℤ) (bendRadius : ℚ)
    (hip : ∀ pts ∈ edgePaths, ∀ p ∈ pts, IntPoint p)
    (horth : ∀ pts ∈ edgePaths, Ortho pts)
    (hstub : ∀ pts ∈ edgePaths, 4 ≤ pts.length →
      (pts.getD 0 ⟨0, 0⟩).x = (pts.getD 1 ⟨0, 0⟩).x ∧
      (pts.getD (pts.length - 2) ⟨0, 0⟩).x = (pts.getD (pts.length - 1) ⟨0, 0⟩).x) :
    ∀ out ∈ separateOverlappingEdges edgePaths (2 * (k : ℚ)) bendRadius, Ortho out := by
  intro out hout
  unfold separateOverlappingEdges at hout
  split at hout
  · exact horth out hout
  · dsimp only at hout
    split at hout
    · exact horth out hout
    · rw [List.mem_map] at hout
      obtain ⟨ep, hep, heq⟩ := hout
      rw [← heq]
      exact separateOne_ortho _ ep.1 ep.2 (offsetsOf_isInt k edgePaths)
        (hip ep.2 (mem_of_mem_enum edgePaths ep hep))
        (horth ep.2 (mem_of_mem_enum edgePaths ep hep))
        (hstub ep.2 (mem_of_mem_enum edgePaths ep hep))

/-- C3 witness: a concrete two-edge batch sharing the `y = 50` corridor,
with vertical stubs on both edges and separation `4 = 2·2`; the separator
moves the corridor segments apart and both outputs stay orthogonal. -/
theorem claim_C3_witness :
    (∀ pts ∈ [[(⟨0, 0⟩ : Point), ⟨0, 20⟩, ⟨40, 20⟩, ⟨40, 50⟩, ⟨80, 50⟩, ⟨80, 70⟩],
        [⟨300, 0⟩, ⟨300, 20⟩, ⟨300, 50⟩, ⟨60, 50⟩, ⟨60, 100⟩, ⟨60, 120⟩]], Ortho pts) ∧
      (∀ out ∈ separateOverlappingEdges
          [[(⟨0, 0⟩ : Point), ⟨0, 20⟩, ⟨40, 20⟩, ⟨40, 50⟩, ⟨80, 50⟩, ⟨80, 70⟩],
            [⟨300, 0⟩, ⟨300, 20⟩, ⟨300, 50⟩, ⟨60, 50⟩, ⟨60, 100⟩, ⟨60, 120⟩]]
          (2 * ((2 : ℤ) : ℚ)) 8, Ortho out) := by
  refine ⟨by with_unfolding_all decide, ?_⟩
  refine claim_C3 _ 2 8 ?_ ?_ ?_
  · have hden : ∀ pts ∈ [[(⟨0, 0⟩ : Point), ⟨0, 20⟩, ⟨40, 20⟩, ⟨40, 50⟩, ⟨80, 50⟩, ⟨80, 70⟩],
        [⟨300, 0⟩, ⟨300, 20⟩, ⟨300, 50⟩, ⟨60, 50⟩, ⟨60, 100⟩, ⟨60, 120⟩]],
        ∀ p ∈ pts, p.x.den = 1 ∧ p.y.den = 1 := by with_unfolding_all decide
    intro pts hpts p hp
    exact ⟨isInt_of_den_one (hden pts hpts p hp).1, isInt_of_den_one (hden pts hpts p hp).2⟩
  · with_unfolding_all decide
  · with_unfolding_all decide

/-- C8 counterexample: with the source stub end strictly inside an inflated
obstacle but the near-overlap shortcut condition satisfied (stub `x`s differ
by 0.5 < 1), the router returns the 4-point shortcut, not the S-shape — the
shortcut runs before the inside-an-obstacle check. -/
theorem claim_C8_counterexample :
    pointStrictlyInsideAnyObstacle
        (routerStubSrc 0 0 DEFAULTS.sourceDir DEFAULTS.sourceStubLength).x
        (routerStubSrc 0 0 DEFAULTS.sourceDir DEFAULTS.sourceStubLength).y
        (routerObstacles [⟨0, -50, 10, 100, 50⟩] DEFAULTS.padding) = true ∧
      computeOrthogonalPath 0 0 (1 / 2) (-100) [⟨0, -50, 10, 100, 50⟩] DEFAULTS ≠
        simplifyPath (fallbackPath 0 0 (1 / 2) (-100) DEFAULTS.sourceDir DEFAULTS.targetDir
          DEFAULTS.sourceStubLength DEFAULTS.targetStubLength) := by
  constructor <;> with_unfolding_all decide

/-- C8 amended: whenever either stub endpoint lies strictly inside an
inflated obstacle or Dijkstra finishes with `dist[endIdx] = Infinity`,
`computeOrthogonalPath` (a total function — it never throws) returns the
simplified S-shape of `fallbackPath`: with two vertical stubs the two mid
points use `midY = (stubSrc.y + stubTgt.y)/2`, with two horizontal stubs
`midX` analogously, and with mixed stub axes a single corner point — except
that the near-overlap shortcut, when it fires, bypasses this fallback (whence
the `trivialCond = false` hypothesis, missing from the original claim). -/
theorem claim_C8 (sx sy tx ty : ℚ) (allNodes : List NodeRect) (cfg : Config)
    (htriv : trivialCond sx sy tx ty cfg.sourceDir cfg.targetDir
      cfg.sourceStubLength cfg.targetStubLength = false)
    (hfail :
      pointStrictlyInsideAnyObstacle (routerStubSrc sx sy cfg.sourceDir cfg.sourceStubLength).x
          (routerStubSrc sx sy cfg.sourceDir cfg.sourceStubLength).y
          (routerObstacles allNodes cfg.padding) = true ∨
        pointStrictlyInsideAnyObstacle
          (routerStubTgt tx ty cfg.targetDir cfg.targetStubLength).x
          (routerStubTgt tx ty cfg.targetDir cfg.targetStubLength).y
          (routerObstacles allNodes cfg.padding) = true ∨
        routerDistEnd sx sy tx ty allNodes cfg.padding cfg.sourceDir cfg.targetDir
          cfg.sourceStubLength cfg.targetStubLength cfg.bendPenalty = none) :
    computeOrthogonalPath sx sy tx ty allNodes cfg =
        simplifyPath (fallbackPath sx sy tx ty cfg.sourceDir cfg.targetDir
          cfg.sourceStubLength cfg.targetStubLength) ∧
      ((resolveDir cfg.sourceDir .bottom).isVertical = true →
        (resolveDir cfg.targetDir .top).isVertical = true →
        fallbackPath sx sy tx ty cfg.sourceDir cfg.targetDir
            cfg.sourceStubLength cfg.targetStubLength =
          [⟨sx, sy⟩, routerStubSrc sx sy cfg.sourceDir cfg.sourceStubLength,
            ⟨(routerStubSrc sx sy cfg.sourceDir cfg.sourceStubLength).x,
              ((routerStubSrc sx sy cfg.sourceDir cfg.sourceStubLength).y +
                (routerStubTgt tx ty cfg.targetDir cfg.targetStubLength).y) / 2⟩,
            ⟨(routerStubTgt tx ty cfg.targetDir cfg.targetStubLength).x,
              ((routerStubSrc sx sy cfg.sourceDir cfg.sourceStubLength).y +
                (routerStubTgt tx ty cfg.targetDir cfg.targetStubLength).y) / 2⟩,
            routerStubTgt tx ty cfg.targetDir cfg.targetStubLength, ⟨tx, ty⟩]) ∧
      ((resolveDir cfg.sourceDir .bottom).isVertical = false →
        (resolveDir cfg.targetDir .top).isVertical = false →
        fallbackPath sx sy tx ty cfg.sourceDir cfg.targetDir
            cfg.sourceStubLength cfg.targetStubLength =
          [⟨sx, sy⟩, routerStubSrc sx sy cfg.sourceDir cfg.sourceStubLength,
            ⟨((routerStubSrc sx sy cfg.sourceDir cfg.sourceStubLength).x +
                (routerStubTgt tx ty cfg.targetDir cfg.targetStubLength).x) / 2,
              (routerStubSrc sx sy cfg.sourceDir cfg.sourceStubLength).y⟩,
            ⟨((routerStubSrc sx sy cfg.sourceDir cfg.sourceStubLength).x +
                (routerStubTgt tx ty cfg.targetDir cfg.targetStubLength).x) / 2,
              (routerStubTgt tx ty cfg.targetDir cfg.targetStubLength).y⟩,
            routerStubTgt tx ty cfg.targetDir cfg.targetStubLength, ⟨tx, ty⟩]) ∧
      ((resolveDir cfg.sourceDir .bottom).isVertical ≠
          (resolveDir cfg.targetDir .top).isVertical →
        fallbackPath sx sy tx ty cfg.sourceDir cfg.targetDir
            cfg.sourceStubLength cfg.targetStubLength =
          [⟨sx, sy⟩, routerStubSrc sx sy cfg.sourceDir cfg.sourceStubLength,
            ⟨(routerStubTgt tx ty cfg.targetDir cfg.targetStubLength).x,
              (routerStubSrc sx sy cfg.sourceDir cfg.sourceStubLength).y⟩,
            routerStubTgt tx ty cfg.targetDir cfg.targetStubLength, ⟨tx, ty⟩]) := by
  refine ⟨?_, ?_, ?_, ?_⟩
  · unfold computeOrthogonalPath computeCore
    rw [htriv]
    simp only [Bool.false_eq_true, if_false]
    unfold routeViaGrid
    rcases hsI : routerStartIdx sx sy tx ty allNodes cfg.padding cfg.sourceDir cfg.targetDir
        cfg.sourceStubLength cfg.targetStubLength with _ | s
    · rfl
    · rcases heI : routerEndIdx sx sy tx ty allNodes cfg.padding cfg.sourceDir cfg.targetDir
          cfg.sourceStubLength cfg.targetStubLength with _ | e
      · rfl
      · have hds : (routerDState sx sy tx ty allNodes cfg.padding cfg.sourceDir cfg.targetDir
            cfg.sourceStubLength cfg.targetStubLength cfg.bendPenalty s e).dist.getD e none =
            none := by
          rcases hfail with h | h | h
          · rw [routerStartIdx_none_of_inside sx sy tx ty allNodes cfg.padding cfg.sourceDir
              cfg.targetDir cfg.sourceStubLength cfg.targetStubLength h] at hsI
            cases hsI
          · rw [routerEndIdx_none_of_inside sx sy tx ty allNodes cfg.padding cfg.sourceDir
              cfg.targetDir cfg.sourceStubLength cfg.targetStubLength h] at heI
            cases heI
          · unfold routerDistEnd at h
            rw [hsI, heI] at h
            exact h
        dsimp only
        rw [hds]
  · intro h1 h2
    unfold fallbackPath
    dsimp only
    rw [if_pos ⟨h1, h2⟩]
    rfl
  · intro h1 h2
    unfold fallbackPath
    dsimp only
    have hc1 : ¬((resolveDir cfg.sourceDir .bottom).isVertical = true ∧
        (resolveDir cfg.targetDir .top).isVertical = true) := by
      intro hc
      rw [h1] at hc
      cases hc.1
    have hc2 : ¬(resolveDir cfg.sourceDir .bottom).isVertical = true ∧
        ¬(resolveDir cfg.targetDir .top).isVertical = true :=
      ⟨fun hc => (by rw [h1] at hc; cases hc), fun hc => (by rw [h2] at hc; cases hc)⟩
    rw [if_neg hc1, if_pos hc2]
    rfl
  · intro hne
    unfold fallbackPath
    dsimp only
    have hc1 : ¬((resolveDir cfg.sourceDir .bottom).isVertical = true ∧
        (resolveDir cfg.targetDir .top).isVertical = true) := by
      intro hc
      exact hne (by rw [hc.1, hc.2])
    have hc2 : ¬(¬(resolveDir cfg.sourceDir .bottom).isVertical = true ∧
        ¬(resolveDir cfg.targetDir .top).isVertical = true) := by
      intro hc
      rcases hb1 : (resolveDir cfg.sourceDir .bottom).isVertical with _ | _ <;>
        rcases hb2 : (resolveDir cfg.targetDir .top).isVertical with _ | _
      · exact hne (by rw [hb1, hb2])
      · exact hc.2 hb2
      · exact hc.1 hb1
      · exact hne (by rw [hb1, hb2])
    rw [if_neg hc1, if_neg hc2]
    rfl

/-- C8 witness: a source stub end sandwiched inside an inflated obstacle
(while the shortcut does not fire) yields the simplified S-shape. -/
theorem claim_C8_witness :
    trivialCond 0 0 0 300 DEFAULTS.sourceDir DEFAULTS.targetDir DEFAULTS.sourceStubLength
        DEFAULTS.targetStubLength = false ∧
      pointStrictlyInsideAnyObstacle
          (routerStubSrc 0 0 DEFAULTS.sourceDir DEFAULTS.sourceStubLength).x
          (routerStubSrc 0 0 DEFAULTS.sourceDir DEFAULTS.sourceStubLength).y
          (routerObstacles [⟨0, -50, 10, 100, 50⟩] DEFAULTS.padding) = true ∧
      computeOrthogonalPath 0 0 0 300 [⟨0, -50, 10, 100, 50⟩] DEFAULTS =
        simplifyPath (fallbackPath 0 0 0 300 DEFAULTS.sourceDir DEFAULTS.targetDir
          DEFAULTS.sourceStubLength DEFAULTS.targetStubLength) :=
  ⟨by with_unfolding_all decide, by with_unfolding_all decide,
    (claim_C8 0 0 0 300 [⟨0, -50, 10, 100, 50⟩] DEFAULTS (by with_unfolding_all decide)
      (Or.inl (by with_unfolding_all decide))).1⟩

/-- C2 counterexample: a stub endpoint strictly inside an inflated obstacle
forces the S-shape fallback, which runs the whole edge straight through the
obstacle — routed edges do not always avoid inflated rects. -/
theorem claim_C2_counterexample :
    ¬pathAvoids (routerObstacles [⟨0, -50, 10, 100, 50⟩] 20)
      (computeOrthogonalPath 0 0 0 300 [⟨0, -50, 10, 100, 50⟩] DEFAULTS) := by
  with_unfolding_all decide

/-- C2 (amended): the unconditional claim is false — when a stub endpoint is
rejected or Dijkstra fails, the S-shape fallback ignores obstacles entirely
(see the counterexample).  On the success path the claim holds: whenever the
near-overlap shortcut does not fire, the Dijkstra phase reaches the target
(`routerDistEnd ≠ none`), the two port-to-stub segments avoid the inflated
rects, and every node is nondegenerate after inflation, then no segment of
the returned polyline strictly enters any inflated rect. -/
theorem claim_C2 (sx sy tx ty : ℚ) (allNodes : List NodeRect) (cfg : Config)
    (hnd : ∀ nr ∈ allNodes, 0 < nr.width + 2 * cfg.padding ∧ 0 < nr.height + 2 * cfg.padding)
    (htriv : trivialCond sx sy tx ty cfg.sourceDir cfg.targetDir
      cfg.sourceStubLength cfg.targetStubLength = false)
    (hdist : routerDistEnd sx sy tx ty allNodes cfg.padding cfg.sourceDir cfg.targetDir
      cfg.sourceStubLength cfg.targetStubLength cfg.bendPenalty ≠ none)
    (hsrc : pairAvoids (routerObstacles allNodes cfg.padding) ⟨sx, sy⟩
      (routerStubSrc sx sy cfg.sourceDir cfg.sourceStubLength))
    (htgt : pairAvoids (routerObstacles allNodes cfg.padding)
      (routerStubTgt tx ty cfg.targetDir cfg.targetStubLength) ⟨tx, ty⟩) :
    pathAvoids (routerObstacles allNodes cfg.padding)
      (computeOrthogonalPath sx sy tx ty allNodes cfg) := by
  unfold computeOrthogonalPath computeCore
  rw [htriv]
  simp only [Bool.false_eq_true, if_false]
  unfold routeViaGrid
  rcases hsI : routerStartIdx sx sy tx ty allNodes cfg.padding cfg.sourceDir cfg.targetDir
      cfg.sourceStubLength cfg.targetStubLength with _ | s
  · exfalso
    unfold routerDistEnd at hdist
    rw [hsI] at hdist
    exact hdist rfl
  · rcases heI : routerEndIdx sx sy tx ty allNodes cfg.padding cfg.sourceDir cfg.targetDir
        cfg.sourceStubLength cfg.targetStubLength with _ | e
    · exfalso
      unfold routerDistEnd at hdist
      rw [hsI, heI] at hdist
      exact hdist rfl
    · have hdc : (routerDState sx sy tx ty allNodes cfg.padding cfg.sourceDir cfg.targetDir
          cfg.sourceStubLength cfg.targetStubLength cfg.bendPenalty s e).dist.getD e none ≠
          none := by
        unfold routerDistEnd at hdist
        rw [hsI, heI] at hdist
        exact hdist
      dsimp only
      rcases hD : (routerDState sx sy tx ty allNodes cfg.padding cfg.sourceDir cfg.targetDir
          cfg.sourceStubLength cfg.targetStubLength cfg.bendPenalty s e).dist.getD e none
          with _ | c
      · exact absurd hD hdc
      · dsimp only
        obtain ⟨hs1, hs2⟩ := routerStartIdx_spec sx sy tx ty allNodes cfg.padding cfg.sourceDir
          cfg.targetDir cfg.sourceStubLength cfg.targetStubLength s hsI
        obtain ⟨he1, he2⟩ := routerEndIdx_spec sx sy tx ty allNodes cfg.padding cfg.sourceDir
          cfg.targetDir cfg.sourceStubLength cfg.targetStubLength e heI
        have hsNI : pointStrictlyInsideAnyObstacle
            (routerStubSrc sx sy cfg.sourceDir cfg.sourceStubLength).x
            (routerStubSrc sx sy cfg.sourceDir cfg.sourceStubLength).y
            (routerObstacles allNodes cfg.padding) = false := by
          refine routerWps_not_inside sx sy tx ty allNodes cfg.padding cfg.sourceDir
            cfg.targetDir cfg.sourceStubLength cfg.targetStubLength _ ?_
          rw [← hs2]
          exact getD_mem _ s _ hs1
        have htNI : pointStrictlyInsideAnyObstacle
            (routerStubTgt tx ty cfg.targetDir cfg.targetStubLength).x
            (routerStubTgt tx ty cfg.targetDir cfg.targetStubLength).y
            (routerObstacles allNodes cfg.padding) = false := by
          refine routerWps_not_inside sx sy tx ty allNodes cfg.padding cfg.sourceDir
            cfg.targetDir cfg.sourceStubLength cfg.targetStubLength _ ?_
          rw [← he2]
          exact getD_mem _ e _ he1
        refine simplifyPath_avoid _ (routerObstacles_nd allNodes cfg.padding hnd) _
          (dedup_chain _ _ ?_)
        refine gridPath_chain (routerObstacles allNodes cfg.padding)
          (routerWps sx sy tx ty allNodes cfg.padding cfg.sourceDir cfg.targetDir
            cfg.sourceStubLength cfg.targetStubLength)
          (routerAdj sx sy tx ty allNodes cfg.padding cfg.sourceDir cfg.targetDir
            cfg.sourceStubLength cfg.targetStubLength)
          (routerDState sx sy tx ty allNodes cfg.padding cfg.sourceDir cfg.targetDir
            cfg.sourceStubLength cfg.targetStubLength cfg.bendPenalty s e)
          s e ⟨sx, sy⟩ (routerStubSrc sx sy cfg.sourceDir cfg.sourceStubLength)
          (routerStubTgt tx ty cfg.targetDir cfg.targetStubLength) ⟨tx, ty⟩
          (buildAdjacency_sound _ _) ?_ he1 hs2 he2 hdc hsrc htgt hsNI htNI
        exact dijkstraLoop_inv _ s _ cfg.bendPenalty e
          (fun u en hen => (buildAdjacency_sound (routerObstacles allNodes cfg.padding)
            (routerWps sx sy tx ty allNodes cfg.padding cfg.sourceDir cfg.targetDir
              cfg.sourceStubLength cfg.targetStubLength) u en hen).1)
          _ _ ⟨[], initDState_inv _ s _ hs1⟩

/-- C2 witness: a straight vertical route past a far-away nondegenerate
obstacle; the shortcut does not fire (target above source in stub order is
violated), Dijkstra reaches the target, both port-stub segments avoid the
inflated rect, and the returned polyline avoids it everywhere. -/
theorem claim_C2_witness :
    trivialCond 0 0 0 100 DEFAULTS.sourceDir DEFAULTS.targetDir DEFAULTS.sourceStubLength
        DEFAULTS.targetStubLength = false ∧
      routerDistEnd 0 0 0 100 [⟨9, 200, 300, 50, 40⟩] DEFAULTS.padding DEFAULTS.sourceDir
        DEFAULTS.targetDir DEFAULTS.sourceStubLength DEFAULTS.targetStubLength
        DEFAULTS.bendPenalty ≠ none ∧
      pathAvoids (routerObstacles [⟨9, 200, 300, 50, 40⟩] DEFAULTS.padding)
        (computeOrthogonalPath 0 0 0 100 [⟨9, 200, 300, 50, 40⟩] DEFAULTS) :=
  ⟨by with_unfolding_all decide, by with_unfolding_all decide,
    claim_C2 0 0 0 100 [⟨9, 200, 300, 50, 40⟩] DEFAULTS
      (by with_unfolding_all decide)
      (by with_unfolding_all decide)
      (by with_unfolding_all decide)
      (by with_unfolding_all decide)
      (by with_unfolding_all decide)⟩

end Router
